import Mathlib

/-!
# Verification of the nonogram line solver

This file gives a shallow embedding of the solving core of the nonogram
repository (`nonogram_solver.py`) and proves functional-correctness,
safety, invariant and termination properties about it.

The Python field states `UNKNOWN = 0`, `SPACE = 1`, `PAINTED = 2` become the
three constructors of `Cell`.  Python lists become Lean lists; Python slice
reads and slice assignments (including their negative-index wraparound and
length-changing behaviour) are modelled by `pySlice` and `pySliceAssign`.
Functions that can raise (`ValueError` from `_initialize_line`, or
`math.factorial` on a negative argument) return `Option`/`Except` values,
with `none`/`.error` standing for the raised exception.
-/

set_option maxHeartbeats 1000000

/-- The three cell states of the puzzle field: `UNKNOWN = 0`, `SPACE = 1`
(blank), `PAINTED = 2` in the Python source. -/
inductive Cell where
  | unknown : Cell
  | space : Cell
  | painted : Cell
deriving DecidableEq, Repr

/-- Python slice read `l[a:b]` for non-negative indices `a`, `b`
(both are clamped to the list length). -/
def pySlice (l : List α) (a b : Nat) : List α :=
  (l.take b).drop a

/-- Python slice assignment `l[a:b] = xs` for arbitrary integer indices,
including the negative-index wraparound and the length change that occurs
when `xs` is not the same length as the addressed slice:
the effective start is `max 0 (len + a)` for `a < 0` and `min a len`
otherwise (same for the stop index), and the elements of the addressed
slice are replaced by `xs`. -/
def pySliceAssign (l : List α) (a b : Int) (xs : List α) : List α :=
  let a' : Nat := if a < 0 then ((l.length : Int) + a).toNat else min a.toNat l.length
  let b' : Nat := if b < 0 then ((l.length : Int) + b).toNat else min b.toNat l.length
  l.take a' ++ xs ++ l.drop (max a' b')

/-- `_find_if_block_fits`: check whether block `indBlock` of `bs`, placed at
`startingPosition`, is compatible with the already discovered cells of
`line`, given the `prev` start positions of the blocks already placed. -/
def findIfBlockFits (indBlock startingPosition : Nat) (bs prev : List Nat)
    (line : List Cell) : Bool :=
  if Cell.space ∈ pySlice line startingPosition (startingPosition + bs.getD indBlock 0) then
    false
  else
    let spaceStart : Nat :=
      if indBlock = 0 then 0 else prev.getLastD 0 + bs.getD (indBlock - 1) 0
    if Cell.painted ∈ pySlice line spaceStart startingPosition then
      false
    else if indBlock = bs.length - 1 ∧
        Cell.painted ∈ pySlice line (startingPosition + bs.getD indBlock 0) line.length then
      false
    else
      true

/-- Materialization step of `_generate_option`: start from all `SPACE` and
paint, for each block, the slice `[position, position + length)`. -/
def optionFromPositions (lineLength : Nat) (bs blockPositions : List Nat) : List Cell :=
  blockPositions.enum.foldl
    (fun opt p =>
      pySliceAssign opt (p.2 : Int) ((p.2 + bs.getD p.1 0 : Nat) : Int)
        (List.replicate (bs.getD p.1 0) Cell.painted))
    (List.replicate lineLength Cell.space)

/-- `_generate_option`: enumerate, in yield order, every option (fully
assigned line) that places blocks `indBlock, …, bs.length - 1` of `bs`
after the already placed blocks `prev`, consistently with the fixed cells
of `line`.  The Python function is a recursive generator; the extra `fuel`
argument is the number of blocks still to place (`bs.length - indBlock`),
which bounds the recursion depth and is positive in every reachable call. -/
def genOptionAux (line : List Cell) (bs : List Nat) :
    Nat → Nat → List Nat → List (List Cell)
  | 0, _, _ => []
  | fuel + 1, indBlock, prev =>
    let minStart : Nat :=
      if indBlock = 0 then 0 else prev.getLastD 0 + bs.getD (indBlock - 1) 0 + 1
    let maxStart : Int :=
      (line.length : Int) - ((bs.drop indBlock).sum : Int)
        - ((bs.length : Int) - (indBlock : Int) - 1)
    ((List.range (maxStart + 1 - (minStart : Int)).toNat).map (· + minStart)).flatMap
      (fun startingPosition =>
        if findIfBlockFits indBlock startingPosition bs prev line then
          if indBlock ≠ bs.length - 1 then
            genOptionAux line bs fuel (indBlock + 1) (prev ++ [startingPosition])
          else
            [optionFromPositions line.length bs (prev ++ [startingPosition])]
        else [])

/-- `_generate_option` called at the top level (`ind_block = 0`, no previous
positions). -/
def generateOption (line : List Cell) (bs : List Nat) : List (List Cell) :=
  genOptionAux line bs bs.length 0 []

/-- `_update_line`: update one line.  `none` models the `ValueError` raised
by `_initialize_line` when no option exists for a line that is not entirely
unknown. -/
def updateLine (line : List Cell) (bs : List Nat) : Option (List Cell) :=
  if line = List.replicate line.length Cell.unknown then
    some line
  else
    let positionsToCheck : List Nat :=
      (List.range line.length).filter (fun ind => line.getD ind Cell.unknown = Cell.unknown)
    match generateOption line bs with
    | [] => none
    | firstOption :: _ =>
      let initializedStates : List Cell :=
        positionsToCheck.map (fun k => firstOption.getD k Cell.unknown)
      let updatedStates : List Cell :=
        positionsToCheck.enum.map (fun p =>
          let hyp := initializedStates.getD p.1 Cell.unknown
          let lineToContradict := line.set p.2
            (if hyp = Cell.space then Cell.painted else Cell.space)
          let opts :=
            if 2 * p.2 < line.length then generateOption lineToContradict bs
            else generateOption lineToContradict.reverse bs.reverse
          if opts.isEmpty then hyp else Cell.unknown)
      some (positionsToCheck.enum.foldl
        (fun acc p => acc.set p.2 (updatedStates.getD p.1 Cell.unknown)) line)

/-- `math.factorial`, which raises `ValueError` on a negative argument. -/
def pyFactorial (n : Int) : Option Nat :=
  if n < 0 then none else some (Nat.factorial n.toNat)

/-- `_estimate_n_options`: closed-form count of the options of a clue
`bs` on an empty line of length `nLine`.  `none` models the `ValueError`
raised by `math.factorial` on a negative argument. -/
def estimateNOptions (bs : List Nat) (nLine : Nat) : Option Nat :=
  let freeSquares : Int := (nLine : Int) - (bs.sum : Int)
  let k : Nat := bs.length
  let nWaysLastGapNotEmpty : Option Nat :=
    if (k : Int) ≤ freeSquares then
      match pyFactorial freeSquares, pyFactorial (k : Int),
          pyFactorial (freeSquares - (k : Int)) with
      | some a, some b, some c => some (a / b / c)
      | _, _, _ => none
    else some 0
  match nWaysLastGapNotEmpty, pyFactorial freeSquares, pyFactorial ((k : Int) - 1),
      pyFactorial (freeSquares - (k : Int) + 1) with
  | some n1, some a, some b, some c => some (n1 + a / b / c)
  | _, _, _, _ => none

/-- The freshly initialized all-`UNKNOWN` field of `__init__`. -/
def initField (nRows nCols : Nat) : List (List Cell) :=
  List.replicate nRows (List.replicate nCols Cell.unknown)

/-- Read the cell at row `r`, column `c` of a field (defaulting to
`UNKNOWN` outside the field). -/
def cellGet (field : List (List Cell)) (r c : Nat) : Cell :=
  (field.getD r []).getD c Cell.unknown

/-- Earliest possible end of block `i` (`min_finish` in
`_paint_block_overlaps`). -/
def minFinishOf (bs : List Nat) (i : Nat) : Int :=
  (i : Int) + ((bs.take (i + 1)).sum : Int)

/-- Latest possible start of block `i` in a line of length `lineLen`
(`max_start` in `_paint_block_overlaps`). -/
def maxStartOverlap (bs : List Nat) (lineLen i : Nat) : Int :=
  (lineLen : Int) - ((bs.drop i).sum : Int) - ((bs.length : Int) - (i : Int) - 1)

/-- Row phase of `_paint_block_overlaps` restricted to one row: for each
block `i` of the row clue `bs`, the slice `[max_start, min_finish)` of the
row is replaced by `PAINTED` cells (`nCols` is the declared row length used
to compute `max_start`). -/
def paintRowBlocks (bs : List Nat) (nCols : Nat) (row : List Cell) : List Cell :=
  (List.range bs.length).foldl
    (fun r i =>
      pySliceAssign r (maxStartOverlap bs nCols i) (minFinishOf bs i)
        (List.replicate (minFinishOf bs i - maxStartOverlap bs nCols i).toNat Cell.painted))
    row

/-- `_paint_block_overlaps`: paint the forced overlap of every block of
every row clue, then of every column clue. -/
def paintBlockOverlaps (sideNums topNums : List (List Nat))
    (field : List (List Cell)) : List (List Cell) :=
  let nRows := sideNums.length
  let nCols := topNums.length
  let afterRows :=
    (List.range nRows).foldl
      (fun f indRow =>
        f.set indRow (paintRowBlocks (sideNums.getD indRow []) nCols (f.getD indRow [])))
      field
  (List.range nCols).foldl
    (fun f indCol =>
      let bs := topNums.getD indCol []
      (List.range bs.length).foldl
        (fun g i =>
          (List.range nRows).foldl
            (fun h (indRow : Nat) =>
              if maxStartOverlap bs nRows i ≤ (indRow : Int) ∧
                  (indRow : Int) < minFinishOf bs i then
                h.set indRow ((h.getD indRow []).set indCol Cell.painted)
              else h)
            g)
        f)
    afterRows

/-- Write an updated column line back into the field
(the write-back loop of `_solve_columns`). -/
def writeColumn (field : List (List Cell)) (nRows indCol : Nat)
    (updatedLine : List Cell) : List (List Cell) :=
  (List.range nRows).foldl
    (fun f indRow =>
      f.set indRow ((f.getD indRow []).set indCol (updatedLine.getD indRow Cell.unknown)))
    field

/-- `_solve_rows` over an explicit worklist of row indices.  On a
contradiction the `ValueError` propagates with the field in its current
state, which `.error` carries. -/
def solveRowsE (sideNums : List (List Nat)) (rowsSkipped : List Nat) :
    List Nat → List (List Cell) → Except (List (List Cell)) (List (List Cell))
  | [], field => .ok field
  | indRow :: rest, field =>
    if indRow ∈ rowsSkipped then
      solveRowsE sideNums rowsSkipped rest field
    else
      match updateLine (field.getD indRow []) (sideNums.getD indRow []) with
      | none => .error field
      | some updatedLine => solveRowsE sideNums rowsSkipped rest (field.set indRow updatedLine)

/-- `_solve_columns` over an explicit worklist of column indices; `.error`
carries the field at the moment the contradiction is raised. -/
def solveColumnsE (topNums : List (List Nat)) (nRows : Nat) (colsSkipped : List Nat) :
    List Nat → List (List Cell) → Except (List (List Cell)) (List (List Cell))
  | [], field => .ok field
  | indCol :: rest, field =>
    if indCol ∈ colsSkipped then
      solveColumnsE topNums nRows colsSkipped rest field
    else
      match updateLine (field.map (fun row => row.getD indCol Cell.unknown))
          (topNums.getD indCol []) with
      | none => .error field
      | some updatedLine =>
        solveColumnsE topNums nRows colsSkipped rest (writeColumn field nRows indCol updatedLine)

/-- `_do_solution_iteration`: one full pass, all rows then all columns. -/
def doSolutionIteration (sideNums topNums : List (List Nat))
    (rowsSkipped colsSkipped : List Nat) (field : List (List Cell)) :
    Except (List (List Cell)) (List (List Cell)) :=
  match solveRowsE sideNums rowsSkipped (List.range sideNums.length) field with
  | .error f => .error f
  | .ok f => solveColumnsE topNums sideNums.length colsSkipped (List.range topNums.length) f

/-- Number of `UNKNOWN` cells of the field. -/
def unknownCount (field : List (List Cell)) : Nat :=
  (field.map (fun row => row.countP (fun c => c = Cell.unknown))).sum

/-- Terminal outcomes of the solving loop.  `fuelOut` is the artificial
outcome reached only when the fuel of `iterateUntilSolved` is exhausted;
the termination theorem shows a sufficient fuel is `unknownCount + 2`. -/
inductive SolveOutcome where
  | solved : List (List Cell) → SolveOutcome
  | stalled : List (List Cell) → SolveOutcome
  | contradiction : SolveOutcome
  | fuelOut : SolveOutcome
deriving DecidableEq, Repr

/-- `_iterate_until_solved`, with an explicit fuel bounding the number of
loop iterations: each pass either solves the field, stalls, raises a
contradiction, makes strict progress, or (once) clears the skip lists. -/
def iterateUntilSolved (sideNums topNums : List (List Nat)) :
    Nat → List Nat → List Nat → List (List Cell) → SolveOutcome
  | 0, _, _, _ => .fuelOut
  | fuel + 1, rowsSkipped, colsSkipped, field =>
    match doSolutionIteration sideNums topNums rowsSkipped colsSkipped field with
    | .error _ => .contradiction
    | .ok f =>
      if unknownCount f = 0 then
        .solved f
      else if f = field then
        if rowsSkipped = [] ∧ colsSkipped = [] then
          .stalled f
        else
          iterateUntilSolved sideNums topNums fuel [] [] f
      else
        iterateUntilSolved sideNums topNums fuel rowsSkipped colsSkipped f

/-- Number of times the loop takes the branch that clears the skip lists
(mirrors the recursion of `iterateUntilSolved`). -/
def loopClears (sideNums topNums : List (List Nat)) :
    Nat → List Nat → List Nat → List (List Cell) → Nat
  | 0, _, _, _ => 0
  | fuel + 1, rowsSkipped, colsSkipped, field =>
    match doSolutionIteration sideNums topNums rowsSkipped colsSkipped field with
    | .error _ => 0
    | .ok f =>
      if unknownCount f = 0 then 0
      else if f = field then
        if rowsSkipped = [] ∧ colsSkipped = [] then 0
        else 1 + loopClears sideNums topNums fuel [] [] f
      else
        loopClears sideNums topNums fuel rowsSkipped colsSkipped f

/-- Spec-level notion: cell `j` is covered by one of the blocks of `bs`
placed at the start positions `ss`. -/
def coveredAt (bs ss : List Nat) (j : Nat) : Prop :=
  ∃ i < ss.length, ss.getD i 0 ≤ j ∧ j < ss.getD i 0 + bs.getD i 0

instance (bs ss : List Nat) (j : Nat) : Decidable (coveredAt bs ss j) := by
  unfold coveredAt; infer_instance

/-- Spec-level notion: the fully assigned line of length `L` determined by
placing the blocks of `bs` at the start positions `ss` (painted on the
blocks, blank everywhere else). -/
def optionOfStarts (L : Nat) (bs ss : List Nat) : List Cell :=
  (List.range L).map (fun j => if coveredAt bs ss j then Cell.painted else Cell.space)

/-- Spec-level notion: `ss` is a list of start positions placing the blocks
of `bs` in clue order inside a line of length `L`, with at least one blank
between consecutive blocks. -/
def ValidStarts (L : Nat) (bs ss : List Nat) : Prop :=
  ss.length = bs.length ∧
  (∀ i < ss.length - 1, ss.getD i 0 + bs.getD i 0 + 1 ≤ ss.getD (i + 1) 0) ∧
  (ss ≠ [] → ss.getLastD 0 + bs.getLastD 0 ≤ L)

instance (L : Nat) (bs ss : List Nat) : Decidable (ValidStarts L bs ss) := by
  unfold ValidStarts; infer_instance

/-- Spec-level notion: `opt` agrees with every fixed (non-`UNKNOWN`) cell of
`line`. -/
def agreesWithLine (line opt : List Cell) : Prop :=
  ∀ j < line.length, line.getD j Cell.unknown ≠ Cell.unknown →
    opt.getD j Cell.unknown = line.getD j Cell.unknown

instance (line opt : List Cell) : Decidable (agreesWithLine line opt) :=
  Nat.decidableBallLT line.length _

/-- Spec-level notion of an *Option* for a line: a fully assigned candidate
line that places the blocks of `bs` in order with the required separation
and agrees with every fixed cell of `line`. -/
def ValidOption (line : List Cell) (bs : List Nat) (opt : List Cell) : Prop :=
  ∃ ss, ValidStarts line.length bs ss ∧ opt = optionOfStarts line.length bs ss ∧
    agreesWithLine line opt

/-- The per-level condition enforced by the recursion of
`_generate_option`: `ss` places blocks `ind, …, bs.length - 1` of `bs`,
the first of them at position at least `m`, each passing the fit checks of
`_find_if_block_fits` (no blank under a block, no painted cell in the gap
starting at `e` before the block, and for the last block no painted cell
after it). -/
def GoodSuffix (line : List Cell) (bs : List Nat) : Nat → Nat → Nat → List Nat → Prop
  | _, _, _, [] => False
  | ind, e, m, s :: rest =>
    m ≤ s ∧ (s : Int) ≤ maxStartOverlap bs line.length ind ∧
    Cell.space ∉ pySlice line s (s + bs.getD ind 0) ∧
    Cell.painted ∉ pySlice line e s ∧
    (if ind = bs.length - 1 then
      rest = [] ∧ Cell.painted ∉ pySlice line (s + bs.getD ind 0) line.length
    else GoodSuffix line bs (ind + 1) (s + bs.getD ind 0) (s + bs.getD ind 0 + 1) rest)

/-- Variant of `updateLine` written from the spec's words for the
scanning-direction-equivalence claim: probe every cell by scanning the
line always from the start (never via reversal). -/
def updateLineForward (line : List Cell) (bs : List Nat) : Option (List Cell) :=
  if line = List.replicate line.length Cell.unknown then
    some line
  else
    let positionsToCheck : List Nat :=
      (List.range line.length).filter (fun ind => line.getD ind Cell.unknown = Cell.unknown)
    match generateOption line bs with
    | [] => none
    | firstOption :: _ =>
      let initializedStates : List Cell :=
        positionsToCheck.map (fun k => firstOption.getD k Cell.unknown)
      let updatedStates : List Cell :=
        positionsToCheck.enum.map (fun p =>
          let hyp := initializedStates.getD p.1 Cell.unknown
          let lineToContradict := line.set p.2
            (if hyp = Cell.space then Cell.painted else Cell.space)
          let opts := generateOption lineToContradict bs
          if opts.isEmpty then hyp else Cell.unknown)
      some (positionsToCheck.enum.foldl
        (fun acc p => acc.set p.2 (updatedStates.getD p.1 Cell.unknown)) line)

/-- The overlap-painting condition of the specification for one line: cell
`j` lies in `[max_start, min_finish)` for some block `i` of the clue `bs`
over line length `lineLen`. -/
def overlapCond (bs : List Nat) (lineLen j : Nat) : Prop :=
  ∃ i < bs.length,
    maxStartOverlap bs lineLen i ≤ (j : Int) ∧ (j : Int) < minFinishOf bs i

instance (bs : List Nat) (lineLen j : Nat) : Decidable (overlapCond bs lineLen j) := by
  unfold overlapCond; infer_instance

/-- A clue fits a line: the blocks plus one separating blank each do not
exceed the line length. -/
def ClueFits (bs : List Nat) (lineLen : Nat) : Prop :=
  bs.sum + (bs.length - 1) ≤ lineLen

instance (bs : List Nat) (lineLen : Nat) : Decidable (ClueFits bs lineLen) := by
  unfold ClueFits; infer_instance

/-- State of the solving run: the field together with the two skip lists. -/
structure SolveState where
  field : List (List Cell)
  rowsSkipped : List Nat
  colsSkipped : List Nat

/-- One observable grid transition of `solve`: the initial overlap
painting, one row update of `_solve_rows`, one column update of
`_solve_columns`, or the clearing of the skip lists performed by
`_iterate_until_solved` after a no-progress pass.  A contradiction
(`updateLine` returning `none`) produces no transition: the run stops with
the field unchanged. -/
inductive SolveStep (sideNums topNums : List (List Nat)) : SolveState → SolveState → Prop
  | paint (rs cs : List Nat) :
      SolveStep sideNums topNums
        ⟨initField sideNums.length topNums.length, rs, cs⟩
        ⟨paintBlockOverlaps sideNums topNums (initField sideNums.length topNums.length),
          rs, cs⟩
  | row (s : SolveState) (indRow : Nat) (l' : List Cell)
      (hlt : indRow < sideNums.length) (hskip : indRow ∉ s.rowsSkipped)
      (hupd : updateLine (s.field.getD indRow []) (sideNums.getD indRow []) = some l') :
      SolveStep sideNums topNums s ⟨s.field.set indRow l', s.rowsSkipped, s.colsSkipped⟩
  | col (s : SolveState) (indCol : Nat) (l' : List Cell)
      (hlt : indCol < topNums.length) (hskip : indCol ∉ s.colsSkipped)
      (hupd : updateLine (s.field.map (fun row => row.getD indCol Cell.unknown))
          (topNums.getD indCol []) = some l') :
      SolveStep sideNums topNums s
        ⟨writeColumn s.field sideNums.length indCol l', s.rowsSkipped, s.colsSkipped⟩
  | clearSkips (s : SolveState) (h : s.rowsSkipped ≠ [] ∨ s.colsSkipped ≠ []) :
      SolveStep sideNums topNums s ⟨s.field, [], []⟩

/-- The list of start tuples underlying `_generate_option`'s recursion:
all placements of blocks `ind, …, bs.length - 1`, the first one starting
at `m` or later, that pass the fit checks of `_find_if_block_fits`
(with `e` the start of the gap preceding block `ind`), in the order the
generator visits them. -/
def goodTuples (line : List Cell) (bs : List Nat) :
    Nat → Nat → Nat → Nat → List (List Nat)
  | 0, _, _, _ => []
  | fuel + 1, ind, e, m =>
    ((List.range (maxStartOverlap bs line.length ind + 1 - (m : Int)).toNat).map
        (· + m)).flatMap
      (fun s =>
        if Cell.space ∉ pySlice line s (s + bs.getD ind 0) ∧
            Cell.painted ∉ pySlice line e s ∧
            (ind = bs.length - 1 →
              Cell.painted ∉ pySlice line (s + bs.getD ind 0) line.length) then
          if ind ≠ bs.length - 1 then
            (goodTuples line bs fuel (ind + 1) (s + bs.getD ind 0)
                (s + bs.getD ind 0 + 1)).map (s :: ·)
          else [[s]]
        else [])

/-- Declarative description of the start tuples enumerated from level
`ind` on: `ss` places blocks `ind, …, bs.length - 1` in order (first start
at least `m`, one blank between blocks, last block inside the line), no
placed block covers a `SPACE` cell, and no cell of the line that is
`PAINTED` and lies at index `≥ e` is left uncovered. -/
def SuffixSpec (line : List Cell) (bs : List Nat) (ind e m : Nat) (ss : List Nat) : Prop :=
  ss ≠ [] ∧ ss.length = bs.length - ind ∧ m ≤ ss.headD 0 ∧
  (∀ i, i + 1 < ss.length →
    ss.getD i 0 + bs.getD (ind + i) 0 + 1 ≤ ss.getD (i + 1) 0) ∧
  ss.getLastD 0 + bs.getLastD 0 ≤ line.length ∧
  (∀ i < ss.length, ∀ j, ss.getD i 0 ≤ j → j < ss.getD i 0 + bs.getD (ind + i) 0 →
    j < line.length → line.getD j Cell.unknown ≠ Cell.space) ∧
  (∀ j, e ≤ j → j < line.length →
    (∀ i < ss.length, j < ss.getD i 0 ∨ ss.getD i 0 + bs.getD (ind + i) 0 ≤ j) →
    line.getD j Cell.unknown ≠ Cell.painted)

/-- One line refines another: same length, and every fixed (non-`UNKNOWN`)
cell keeps its value. -/
def LineRefines (l l' : List Cell) : Prop :=
  l'.length = l.length ∧
  ∀ c, l.getD c Cell.unknown ≠ Cell.unknown →
    l'.getD c Cell.unknown = l.getD c Cell.unknown

/-- One field refines another: same shape, and every fixed cell keeps its
value. -/
def FieldRefines (f f' : List (List Cell)) : Prop :=
  f'.length = f.length ∧ ∀ r, LineRefines (f.getD r []) (f'.getD r [])

/-! ## Basic list lemmas -/

theorem getD_replicate' {α : Type} (n : Nat) (a : α) (j : Nat) (d : α) :
    (List.replicate n a).getD j d = if j < n then a else d := by
  rcases lt_or_le j n with h | h
  · simp [List.getD_eq_getElem, h, List.getElem_replicate]
  · simp [List.getD_eq_getElem?_getD, List.getElem?_eq_none, h, Nat.not_lt.2 h]

theorem getD_append' {α : Type} (l1 l2 : List α) (j : Nat) (d : α) :
    (l1 ++ l2).getD j d = if j < l1.length then l1.getD j d else l2.getD (j - l1.length) d := by
  rcases lt_or_le j l1.length with h | h
  · rw [List.getD_eq_getElem?_getD, List.getElem?_append_left h]
    simp [List.getD_eq_getElem?_getD, h]
  · rw [List.getD_eq_getElem?_getD, List.getElem?_append_right h]
    simp [List.getD_eq_getElem?_getD, Nat.not_lt.2 h]

theorem getD_set' {α : Type} (l : List α) (i j : Nat) (v : α) (d : α) :
    (l.set i v).getD j d = if i = j ∧ j < l.length then v else l.getD j d := by
  rcases eq_or_ne i j with rfl | hne
  · rcases lt_or_le i l.length with h | h
    · simp [List.getD_eq_getElem?_getD, List.getElem?_set_self, h]
    · simp [List.getD_eq_getElem?_getD, List.getElem?_eq_none, h, Nat.not_lt.2 h,
        List.getElem?_eq_none (by simpa using h : l.length ≤ i)]
  · simp [List.getD_eq_getElem?_getD, List.getElem?_set_ne hne, hne]

theorem list_eq_of_getD {l₁ l₂ : List Cell} (hlen : l₁.length = l₂.length)
    (h : ∀ j, l₁.getD j Cell.unknown = l₂.getD j Cell.unknown) : l₁ = l₂ := by
  apply List.ext_getElem hlen
  intro i h1 h2
  have := h i
  rwa [List.getD_eq_getElem l₁ _ h1, List.getD_eq_getElem l₂ _ h2] at this

/-- Membership in a Python slice, in terms of absolute indices. -/
theorem mem_pySlice {c : Cell} {l : List Cell} {a b : Nat} :
    c ∈ pySlice l a b ↔
      ∃ j, a ≤ j ∧ j < b ∧ j < l.length ∧ l.getD j Cell.unknown = c := by
  unfold pySlice
  rw [List.mem_iff_getElem]
  constructor
  · rintro ⟨i, hi, rfl⟩
    have hlen : ((l.take b).drop a).length = min b l.length - a := by simp
    refine ⟨a + i, Nat.le_add_right _ _, ?_, ?_, ?_⟩
    · omega
    · omega
    · rw [List.getElem_drop, List.getElem_take]
      rw [List.getD_eq_getElem l _ (by omega)]
  · rintro ⟨j, haj, hjb, hjl, hc⟩
    have hlen : ((l.take b).drop a).length = min b l.length - a := by simp
    refine ⟨j - a, by omega, ?_⟩
    rw [List.getElem_drop, List.getElem_take]
    rw [← hc, List.getD_eq_getElem l _ (by omega)]
    congr 1
    omega

theorem not_mem_pySlice {c : Cell} {l : List Cell} {a b : Nat} :
    c ∉ pySlice l a b ↔
      ∀ j, a ≤ j → j < b → j < l.length → l.getD j Cell.unknown ≠ c := by
  rw [mem_pySlice]
  push_neg
  constructor
  · intro h j h1 h2 h3; exact h j h1 h2 h3
  · intro h j h1 h2 h3; exact h j h1 h2 h3

/-! ## Python slice assignment lemmas -/

theorem pySliceAssign_of_nat {α : Type} (l : List α) (p q : Nat) (xs : List α)
    (hq : q ≤ l.length) (hpq : p ≤ q) :
    pySliceAssign l (p : Int) (q : Int) xs = l.take p ++ xs ++ l.drop q := by
  unfold pySliceAssign
  have h1 : ¬((p : Int) < 0) := by omega
  have h2 : ¬((q : Int) < 0) := by omega
  simp only [h1, h2, if_false, Int.toNat_ofNat]
  have : min p l.length = p := by omega
  have h3 : min q l.length = q := by omega
  rw [this, h3]
  congr 2
  omega

theorem pySliceAssign_nil_of_le {α : Type} (l : List α) (a b : Int)
    (ha : 0 ≤ a) (hb : 0 ≤ b) (hba : b ≤ a) :
    pySliceAssign l a b ([] : List α) = l := by
  unfold pySliceAssign
  have h1 : ¬(a < 0) := by omega
  have h2 : ¬(b < 0) := by omega
  simp only [h1, h2, if_false]
  have : max (min a.toNat l.length) (min b.toNat l.length) = min a.toNat l.length := by
    have : b.toNat ≤ a.toNat := by omega
    omega
  rw [this]
  simp

theorem paintSlice_length (l : List Cell) (p q : Nat) (hpq : p ≤ q) (hq : q ≤ l.length) :
    (pySliceAssign l (p : Int) (q : Int) (List.replicate (q - p) Cell.painted)).length
      = l.length := by
  rw [pySliceAssign_of_nat l p q _ hq hpq]
  simp
  omega

theorem getD_take' {α : Type} (l : List α) (n j : Nat) (d : α) (h : j < n) :
    (l.take n).getD j d = l.getD j d := by
  rw [List.getD_eq_getElem?_getD, List.getElem?_take, if_pos h, ← List.getD_eq_getElem?_getD]

theorem getD_drop' {α : Type} (l : List α) (n j : Nat) (d : α) :
    (l.drop n).getD j d = l.getD (n + j) d := by
  rw [List.getD_eq_getElem?_getD, List.getElem?_drop, ← List.getD_eq_getElem?_getD]

theorem paintSlice_getD (l : List Cell) (p q : Nat) (hpq : p ≤ q) (hq : q ≤ l.length)
    (j : Nat) :
    (pySliceAssign l (p : Int) (q : Int) (List.replicate (q - p) Cell.painted)).getD j
        Cell.unknown
      = if p ≤ j ∧ j < q then Cell.painted else l.getD j Cell.unknown := by
  rw [pySliceAssign_of_nat l p q _ hq hpq]
  rw [List.append_assoc, getD_append', getD_append', getD_replicate']
  have hlt : (l.take p).length = p := by simp; omega
  rw [hlt]
  rcases lt_or_le j p with h | h
  · simp only [h, if_true]
    rw [if_neg (by omega), getD_take' l p j _ h]
  · rw [if_neg (by omega)]
    rcases lt_or_le j q with h2 | h2
    · rw [if_pos (by simp only [List.length_replicate]; omega),
        if_pos (And.intro h h2), if_pos (by omega : j - p < q - p)]
    · rw [if_neg (by simp only [List.length_replicate]; omega),
        if_neg (by omega)]
      simp only [List.length_replicate]
      rw [getD_drop']
      congr 1
      omega

/-! ## The materialized option -/

theorem foldPaint_spec (bs : List Nat) (ps : List (Nat × Nat)) (acc : List Cell)
    (bounds : ∀ q ∈ ps, q.2 + bs.getD q.1 0 ≤ acc.length) :
    ((ps.foldl (fun opt p => pySliceAssign opt (p.2 : Int) ((p.2 + bs.getD p.1 0 : Nat) : Int)
        (List.replicate (bs.getD p.1 0) Cell.painted)) acc).length = acc.length) ∧
    ∀ j, (ps.foldl (fun opt p => pySliceAssign opt (p.2 : Int)
          ((p.2 + bs.getD p.1 0 : Nat) : Int)
          (List.replicate (bs.getD p.1 0) Cell.painted)) acc).getD j Cell.unknown
      = if ∃ q ∈ ps, q.2 ≤ j ∧ j < q.2 + bs.getD q.1 0 then Cell.painted
        else acc.getD j Cell.unknown := by
  induction ps generalizing acc with
  | nil => simp
  | cons p rest ih =>
    have hb : p.2 + bs.getD p.1 0 ≤ acc.length := bounds p (by simp)
    have hrepl : List.replicate (bs.getD p.1 0) Cell.painted
        = List.replicate ((p.2 + bs.getD p.1 0) - p.2) Cell.painted := by
      congr 1
      omega
    have hlen : (pySliceAssign acc (p.2 : Int) ((p.2 + bs.getD p.1 0 : Nat) : Int)
        (List.replicate (bs.getD p.1 0) Cell.painted)).length = acc.length := by
      rw [hrepl]
      exact paintSlice_length acc p.2 (p.2 + bs.getD p.1 0) (by omega) hb
    have hget : ∀ j, (pySliceAssign acc (p.2 : Int) ((p.2 + bs.getD p.1 0 : Nat) : Int)
        (List.replicate (bs.getD p.1 0) Cell.painted)).getD j Cell.unknown
        = if p.2 ≤ j ∧ j < p.2 + bs.getD p.1 0 then Cell.painted
          else acc.getD j Cell.unknown := by
      intro j
      rw [hrepl]
      exact paintSlice_getD acc p.2 (p.2 + bs.getD p.1 0) (by omega) hb j
    obtain ⟨ihlen, ihget⟩ := ih _ (fun q hq => by rw [hlen]; exact bounds q (by simp [hq]))
    refine ⟨by rw [List.foldl_cons, ihlen, hlen], ?_⟩
    intro j
    rw [List.foldl_cons, ihget j, hget j]
    by_cases hrest : ∃ q ∈ rest, q.2 ≤ j ∧ j < q.2 + bs.getD q.1 0
    · rw [if_pos hrest, if_pos (by rcases hrest with ⟨q, hq1, hq2⟩; exact ⟨q, by simp [hq1], hq2⟩)]
    · rw [if_neg hrest]
      by_cases hp : p.2 ≤ j ∧ j < p.2 + bs.getD p.1 0
      · rw [if_pos hp, if_pos ⟨p, by simp, hp⟩]
      · rw [if_neg hp, if_neg ?_]
        rintro ⟨q, hq1, hq2⟩
        rcases List.mem_cons.1 hq1 with rfl | hq1
        · exact hp hq2
        · exact hrest ⟨q, hq1, hq2⟩

theorem mem_enum_cover_iff (bs ps : List Nat) (j : Nat) :
    (∃ q ∈ ps.enum, q.2 ≤ j ∧ j < q.2 + bs.getD q.1 0) ↔ coveredAt bs ps j := by
  constructor
  · rintro ⟨⟨i, a⟩, hq1, hq2⟩
    rw [List.mem_enum_iff_getElem?] at hq1
    have hi : i < ps.length := by
      by_contra h
      rw [List.getElem?_eq_none (by omega)] at hq1
      exact Option.noConfusion hq1
    refine ⟨i, hi, ?_⟩
    have : ps.getD i 0 = a := by
      rw [List.getD_eq_getElem?_getD, hq1]
      rfl
    rw [this]
    exact hq2
  · rintro ⟨i, hi, hcov⟩
    refine ⟨(i, ps.getD i 0), ?_, hcov⟩
    rw [List.mem_enum_iff_getElem?, List.getD_eq_getElem _ _ hi, List.getElem?_eq_getElem hi]

theorem optionFromPositions_length (L : Nat) (bs ps : List Nat)
    (bounds : ∀ i < ps.length, ps.getD i 0 + bs.getD i 0 ≤ L) :
    (optionFromPositions L bs ps).length = L := by
  unfold optionFromPositions
  have := (foldPaint_spec bs ps.enum (List.replicate L Cell.space) ?_).1
  · rw [this, List.length_replicate]
  · rintro ⟨i, a⟩ hq
    rw [List.mem_enum_iff_getElem?] at hq
    have hi : i < ps.length := by
      by_contra h
      rw [List.getElem?_eq_none (by omega)] at hq
      exact Option.noConfusion hq
    have : ps.getD i 0 = a := by
      rw [List.getD_eq_getElem?_getD, hq]
      rfl
    rw [List.length_replicate, ← this]
    exact bounds i hi

theorem optionFromPositions_getD (L : Nat) (bs ps : List Nat)
    (bounds : ∀ i < ps.length, ps.getD i 0 + bs.getD i 0 ≤ L) (j : Nat) :
    (optionFromPositions L bs ps).getD j Cell.unknown
      = if coveredAt bs ps j then Cell.painted
        else if j < L then Cell.space else Cell.unknown := by
  unfold optionFromPositions
  have hb : ∀ q ∈ ps.enum, q.2 + bs.getD q.1 0 ≤ (List.replicate L Cell.space).length := by
    rintro ⟨i, a⟩ hq
    rw [List.mem_enum_iff_getElem?] at hq
    have hi : i < ps.length := by
      by_contra h
      rw [List.getElem?_eq_none (by omega)] at hq
      exact Option.noConfusion hq
    have : ps.getD i 0 = a := by
      rw [List.getD_eq_getElem?_getD, hq]
      rfl
    rw [List.length_replicate, ← this]
    exact bounds i hi
  rw [(foldPaint_spec bs ps.enum (List.replicate L Cell.space) hb).2 j]
  rw [getD_replicate']
  by_cases hcov : coveredAt bs ps j
  · rw [if_pos ((mem_enum_cover_iff bs ps j).2 hcov), if_pos hcov]
  · rw [if_neg (fun h => hcov ((mem_enum_cover_iff bs ps j).1 h)), if_neg hcov]

theorem optionOfStarts_length (L : Nat) (bs ss : List Nat) :
    (optionOfStarts L bs ss).length = L := by
  simp [optionOfStarts]

theorem getD_map_range {α : Type} (L : Nat) (f : Nat → α) (j : Nat) (d : α) :
    ((List.range L).map f).getD j d = if j < L then f j else d := by
  rcases lt_or_le j L with h | h
  · rw [List.getD_eq_getElem _ _ (by simpa using h), List.getElem_map, List.getElem_range,
      if_pos h]
  · rw [List.getD_eq_default _ _ (by simpa using h), if_neg (by omega)]

theorem optionOfStarts_getD (L : Nat) (bs ss : List Nat) (j : Nat) :
    (optionOfStarts L bs ss).getD j Cell.unknown
      = if j < L then (if coveredAt bs ss j then Cell.painted else Cell.space)
        else Cell.unknown := by
  unfold optionOfStarts
  rw [getD_map_range]

theorem optionFromPositions_eq_optionOfStarts (L : Nat) (bs ps : List Nat)
    (bounds : ∀ i < ps.length, ps.getD i 0 + bs.getD i 0 ≤ L) :
    optionFromPositions L bs ps = optionOfStarts L bs ps := by
  apply list_eq_of_getD
  · rw [optionFromPositions_length L bs ps bounds, optionOfStarts_length]
  · intro j
    rw [optionFromPositions_getD L bs ps bounds j, optionOfStarts_getD]
    by_cases hcov : coveredAt bs ps j
    · have hj : j < L := by
        rcases hcov with ⟨i, hi, h1, h2⟩
        have := bounds i hi
        omega
      rw [if_pos hcov, if_pos hj, if_pos hcov]
    · simp only [if_neg hcov]

/-! ## The generator and its start-tuple enumeration -/

theorem findIfBlockFits_iff (ind s : Nat) (bs prev : List Nat) (line : List Cell) :
    findIfBlockFits ind s bs prev line = true ↔
      (Cell.space ∉ pySlice line s (s + bs.getD ind 0) ∧
        Cell.painted ∉ pySlice line
          (if ind = 0 then 0 else prev.getLastD 0 + bs.getD (ind - 1) 0) s ∧
        (ind = bs.length - 1 →
          Cell.painted ∉ pySlice line (s + bs.getD ind 0) line.length)) := by
  show (if Cell.space ∈ pySlice line s (s + bs.getD ind 0) then false
      else if Cell.painted ∈ pySlice line
          (if ind = 0 then 0 else prev.getLastD 0 + bs.getD (ind - 1) 0) s then false
      else if ind = bs.length - 1 ∧
          Cell.painted ∈ pySlice line (s + bs.getD ind 0) line.length then false
      else true) = true ↔ _
  by_cases h1 : Cell.space ∈ pySlice line s (s + bs.getD ind 0)
  · rw [if_pos h1]
    constructor
    · intro h
      exact absurd h (by decide)
    · rintro ⟨c1, _, _⟩
      exact absurd h1 c1
  · rw [if_neg h1]
    by_cases h2 : Cell.painted ∈ pySlice line
        (if ind = 0 then 0 else prev.getLastD 0 + bs.getD (ind - 1) 0) s
    · rw [if_pos h2]
      constructor
      · intro h
        exact absurd h (by decide)
      · rintro ⟨_, c2, _⟩
        exact absurd h2 c2
    · rw [if_neg h2]
      by_cases h3 : ind = bs.length - 1 ∧
          Cell.painted ∈ pySlice line (s + bs.getD ind 0) line.length
      · rw [if_pos h3]
        constructor
        · intro h
          exact absurd h (by decide)
        · rintro ⟨_, _, c3⟩
          exact absurd h3.2 (c3 h3.1)
      · rw [if_neg h3]
        exact ⟨fun _ => ⟨h1, h2, fun hlast hmem => h3 ⟨hlast, hmem⟩⟩, fun _ => rfl⟩

theorem mem_startList {m : Nat} {M : Int} {s : Nat} :
    s ∈ (List.range (M + 1 - (m : Int)).toNat).map (· + m) ↔ m ≤ s ∧ (s : Int) ≤ M := by
  simp only [List.mem_map, List.mem_range]
  constructor
  · rintro ⟨d, hd, rfl⟩
    omega
  · rintro ⟨h1, h2⟩
    exact ⟨s - m, by omega, by omega⟩

theorem pairwise_startList {m : Nat} {M : Int} :
    (((List.range (M + 1 - (m : Int)).toNat).map (· + m)).Pairwise (· < ·)) := by
  rw [List.pairwise_map]
  exact (List.pairwise_lt_range _).imp (fun h => by omega)

theorem pairwise_flatMap_of {α β : Type} {R : β → β → Prop} {S : α → α → Prop}
    {f : α → List β} {l : List α} (hl : l.Pairwise S)
    (hin : ∀ a ∈ l, (f a).Pairwise R)
    (hcross : ∀ a b, S a b → ∀ x ∈ f a, ∀ y ∈ f b, R x y) :
    (l.flatMap f).Pairwise R := by
  induction l with
  | nil => simp
  | cons a l ih =>
    rw [List.flatMap_cons, List.pairwise_append]
    refine ⟨hin a (by simp), ih (List.pairwise_cons.1 hl).2
      (fun b hb => hin b (by simp [hb])), ?_⟩
    intro x hx y hy
    rw [List.mem_flatMap] at hy
    rcases hy with ⟨b, hb, hyb⟩
    exact hcross a b ((List.pairwise_cons.1 hl).1 b hb) x hx y hyb

theorem genOptionAux_eq_goodTuples (line : List Cell) (bs : List Nat) :
    ∀ fuel ind prev,
    genOptionAux line bs fuel ind prev
      = (goodTuples line bs fuel ind
          (if ind = 0 then 0 else prev.getLastD 0 + bs.getD (ind - 1) 0)
          (if ind = 0 then 0 else prev.getLastD 0 + bs.getD (ind - 1) 0 + 1)).map
        (fun ss => optionFromPositions line.length bs (prev ++ ss)) := by
  intro fuel
  induction fuel with
  | zero => intro ind prev; rfl
  | succ fuel ih =>
    intro ind prev
    show genOptionAux line bs (fuel + 1) ind prev = _
    rw [genOptionAux, goodTuples, List.map_flatMap]
    have hms : (if ind = 0 then 0 else prev.getLastD 0 + bs.getD (ind - 1) 0 + 1)
        = (if ind = 0 then 0 else prev.getLastD 0 + bs.getD (ind - 1) 0) + 1
          - (if ind = 0 then 1 else 0) := by
      split_ifs <;> omega
    have hmaxeq : ((line.length : Int) - ((bs.drop ind).sum : Int)
        - ((bs.length : Int) - (ind : Int) - 1)) = maxStartOverlap bs line.length ind := rfl
    apply List.flatMap_congr
    intro s hs
    by_cases hfit : findIfBlockFits ind s bs prev line
    · rw [if_pos hfit, if_pos ((findIfBlockFits_iff ind s bs prev line).1 hfit)]
      by_cases hlast : ind = bs.length - 1
      · rw [if_neg (by simpa using hlast), if_neg (by simpa using hlast)]
        simp
      · rw [if_pos hlast, if_pos hlast, ih (ind + 1) (prev ++ [s])]
        have e1 : (if ind + 1 = 0 then 0
            else (prev ++ [s]).getLastD 0 + bs.getD (ind + 1 - 1) 0)
            = s + bs.getD ind 0 := by
          rw [if_neg (by omega)]
          simp [List.getLastD_concat]
        have e2 : (if ind + 1 = 0 then 0
            else (prev ++ [s]).getLastD 0 + bs.getD (ind + 1 - 1) 0 + 1)
            = s + bs.getD ind 0 + 1 := by
          rw [if_neg (by omega)]
          simp [List.getLastD_concat]
        rw [e1, e2, List.map_map]
        apply List.map_congr_left
        intro ss _
        simp
    · rw [if_neg hfit,
        if_neg (fun hc => hfit ((findIfBlockFits_iff ind s bs prev line).2 hc))]
      rfl

theorem mem_goodTuples (line : List Cell) (bs : List Nat) :
    ∀ fuel ind e m ss, ind < bs.length → fuel = bs.length - ind →
    (ss ∈ goodTuples line bs fuel ind e m ↔ GoodSuffix line bs ind e m ss) := by
  intro fuel
  induction fuel with
  | zero =>
    intro ind e m ss hind hfuel
    omega
  | succ fuel ih =>
    intro ind e m ss hind hfuel
    rw [goodTuples, List.mem_flatMap]
    constructor
    · rintro ⟨s, hs, hss⟩
      rw [mem_startList] at hs
      by_cases hcond : Cell.space ∉ pySlice line s (s + bs.getD ind 0) ∧
          Cell.painted ∉ pySlice line e s ∧
          (ind = bs.length - 1 →
            Cell.painted ∉ pySlice line (s + bs.getD ind 0) line.length)
      · rw [if_pos hcond] at hss
        by_cases hlast : ind = bs.length - 1
        · rw [if_neg (by simpa using hlast)] at hss
          have : ss = [s] := by simpa using hss
          subst this
          simp only [GoodSuffix]
          refine ⟨hs.1, hs.2, hcond.1, hcond.2.1, ?_⟩
          rw [if_pos hlast]
          exact ⟨trivial, hcond.2.2 hlast⟩
        · rw [if_pos hlast] at hss
          rw [List.mem_map] at hss
          rcases hss with ⟨rest, hrest, rfl⟩
          have hrec := (ih (ind + 1) (s + bs.getD ind 0) (s + bs.getD ind 0 + 1) rest
            (by omega) (by omega)).1 hrest
          simp only [GoodSuffix]
          refine ⟨hs.1, hs.2, hcond.1, hcond.2.1, ?_⟩
          rw [if_neg hlast]
          exact hrec
      · rw [if_neg hcond] at hss
        exact absurd hss (List.not_mem_nil ss)
    · intro hgood
      match ss, hgood with
      | s :: rest, hgood =>
        simp only [GoodSuffix] at hgood
        obtain ⟨hm, hM, hc1, hc2, hrest⟩ := hgood
        refine ⟨s, mem_startList.2 ⟨hm, hM⟩, ?_⟩
        by_cases hlast : ind = bs.length - 1
        · rw [if_pos hlast] at hrest
          rw [if_pos ⟨hc1, hc2, fun _ => hrest.2⟩, if_neg (by simpa using hlast)]
          simp [hrest.1]
        · rw [if_neg hlast] at hrest
          rw [if_pos ⟨hc1, hc2, fun h => absurd h hlast⟩, if_pos hlast, List.mem_map]
          exact ⟨rest, (ih (ind + 1) (s + bs.getD ind 0) (s + bs.getD ind 0 + 1) rest
            (by omega) (by omega)).2 hrest, rfl⟩

theorem mem_goodTuples_payload_shape {line : List Cell} {bs : List Nat}
    {fuel ind e s : Nat} {x : List Nat}
    (hx : x ∈ (if Cell.space ∉ pySlice line s (s + bs.getD ind 0) ∧
        Cell.painted ∉ pySlice line e s ∧
        (ind = bs.length - 1 →
          Cell.painted ∉ pySlice line (s + bs.getD ind 0) line.length) then
      if ind ≠ bs.length - 1 then
        (goodTuples line bs fuel (ind + 1) (s + bs.getD ind 0)
            (s + bs.getD ind 0 + 1)).map (s :: ·)
      else [[s]]
    else [])) : ∃ rest, x = s :: rest := by
  by_cases hcond : Cell.space ∉ pySlice line s (s + bs.getD ind 0) ∧
      Cell.painted ∉ pySlice line e s ∧
      (ind = bs.length - 1 →
        Cell.painted ∉ pySlice line (s + bs.getD ind 0) line.length)
  · rw [if_pos hcond] at hx
    by_cases hlast : ind ≠ bs.length - 1
    · rw [if_pos hlast, List.mem_map] at hx
      rcases hx with ⟨rest, _, rfl⟩
      exact ⟨rest, rfl⟩
    · rw [if_neg hlast] at hx
      have : x = [s] := by simpa using hx
      exact ⟨[], this⟩
  · rw [if_neg hcond] at hx
    exact absurd hx (List.not_mem_nil x)

theorem pairwise_goodTuples (line : List Cell) (bs : List Nat) :
    ∀ fuel ind e m, (goodTuples line bs fuel ind e m).Pairwise (List.Lex (· < ·)) := by
  intro fuel
  induction fuel with
  | zero =>
    intro ind e m
    simp [goodTuples]
  | succ fuel ih =>
    intro ind e m
    rw [goodTuples]
    apply pairwise_flatMap_of pairwise_startList
    · intro s _
      by_cases hcond : Cell.space ∉ pySlice line s (s + bs.getD ind 0) ∧
          Cell.painted ∉ pySlice line e s ∧
          (ind = bs.length - 1 →
            Cell.painted ∉ pySlice line (s + bs.getD ind 0) line.length)
      · rw [if_pos hcond]
        by_cases hlast : ind ≠ bs.length - 1
        · rw [if_pos hlast, List.pairwise_map]
          exact (ih (ind + 1) (s + bs.getD ind 0) (s + bs.getD ind 0 + 1)).imp
            (fun h => List.Lex.cons h)
        · rw [if_neg hlast]
          simp
      · rw [if_neg hcond]
        simp
    · intro a b hab x hx y hy
      rcases mem_goodTuples_payload_shape hx with ⟨restx, rfl⟩
      rcases mem_goodTuples_payload_shape hy with ⟨resty, rfl⟩
      exact List.Lex.rel hab

/-! ## From the recursion invariant to the declarative description -/

theorem headD_eq_getD {l : List Nat} {d : Nat} : l.headD d = l.getD 0 d := by
  cases l <;> rfl

theorem getLastD_ne_nil {l : List Nat} (h : l ≠ []) (d d' : Nat) :
    l.getLastD d = l.getLastD d' := by
  cases l with
  | nil => exact absurd rfl h
  | cons a l =>
    rw [List.getLastD_eq_getLast?, List.getLastD_eq_getLast?]
    cases hlast : (a :: l).getLast? with
    | none => exact absurd hlast (by simp)
    | some x => rfl

theorem getLastD_eq_getD_last (bs : List Nat) (h : bs ≠ []) :
    bs.getLastD 0 = bs.getD (bs.length - 1) 0 := by
  have hlen : 0 < bs.length := List.length_pos.2 h
  rw [List.getLastD_eq_getLast?, List.getLast?_eq_getElem?, List.getD_eq_getElem?_getD]

theorem sum_drop_succ (bs : List Nat) (ind : Nat) (h : ind < bs.length) :
    (bs.drop ind).sum = bs.getD ind 0 + (bs.drop (ind + 1)).sum := by
  rw [List.getD_eq_getElem _ _ h]
  rw [← List.sum_cons]
  congr 1
  exact List.drop_eq_getElem_cons h

theorem sum_drop_last (bs : List Nat) (h : bs ≠ []) :
    (bs.drop (bs.length - 1)).sum = bs.getLastD 0 := by
  have hlen : 0 < bs.length := List.length_pos.2 h
  rw [sum_drop_succ bs (bs.length - 1) (by omega), getLastD_eq_getD_last bs h]
  have h2 : bs.length - 1 + 1 = bs.length := by omega
  rw [h2, List.drop_length, List.sum_nil, Nat.add_zero]

theorem maxStartOverlap_succ (bs : List Nat) (lineLen ind : Nat) (h : ind < bs.length) :
    maxStartOverlap bs lineLen (ind + 1)
      = maxStartOverlap bs lineLen ind + bs.getD ind 0 + 1 := by
  unfold maxStartOverlap
  rw [sum_drop_succ bs ind h]
  push_cast
  ring

theorem maxStartOverlap_last (bs : List Nat) (lineLen : Nat) (h : bs ≠ []) :
    maxStartOverlap bs lineLen (bs.length - 1)
      = (lineLen : Int) - (bs.getLastD 0 : Int) := by
  unfold maxStartOverlap
  rw [sum_drop_last bs h]
  have hlen : 0 < bs.length := List.length_pos.2 h
  have : ((bs.length : Int) - ((bs.length - 1 : Nat) : Int) - 1) = 0 := by
    omega
  rw [sub_sub, ← sub_sub]
  push_cast [Nat.cast_sub (by omega : 1 ≤ bs.length)]
  ring

theorem suffixSpec_start_mono {line : List Cell} {bs : List Nat} {ind e m : Nat}
    {ss : List Nat} (h : SuffixSpec line bs ind e m ss) :
    ∀ i < ss.length, m ≤ ss.getD i 0 := by
  obtain ⟨hne, _, hhead, hchain, _⟩ := h
  intro i
  induction i with
  | zero =>
    intro _
    rw [← headD_eq_getD]
    exact hhead
  | succ i ih =>
    intro hi
    have h1 := ih (by omega)
    have h2 := hchain i (by omega)
    omega

theorem suffixSpec_cons_iff {line : List Cell} {bs : List Nat} {ind e m s : Nat}
    {rest : List Nat} (hind : ind < bs.length) (hlast : ind ≠ bs.length - 1)
    (he : e ≤ m) :
    SuffixSpec line bs ind e m (s :: rest) ↔
      (m ≤ s ∧ Cell.space ∉ pySlice line s (s + bs.getD ind 0) ∧
        Cell.painted ∉ pySlice line e s ∧
        SuffixSpec line bs (ind + 1) (s + bs.getD ind 0) (s + bs.getD ind 0 + 1) rest) := by
  have eix : ∀ i : Nat, ind + (i + 1) = ind + 1 + i := fun i => by omega
  constructor
  · rintro ⟨-, hB, hC, hD, hE, hF, hG⟩
    have hBlen : rest.length + 1 = bs.length - ind := by simpa using hB
    have hrestlen : rest.length = bs.length - (ind + 1) := by omega
    have hrestne : rest ≠ [] := List.ne_nil_of_length_pos (by omega)
    have hm : m ≤ s := by simpa using hC
    have hhead' : s + bs.getD ind 0 + 1 ≤ rest.headD 0 := by
      have h0 := hD 0 (by simp; omega)
      simp only [List.getD_cons_zero, List.getD_cons_succ, Nat.add_zero] at h0
      rwa [headD_eq_getD]
    have hchain' : ∀ i, i + 1 < rest.length →
        rest.getD i 0 + bs.getD (ind + 1 + i) 0 + 1 ≤ rest.getD (i + 1) 0 := by
      intro i hi
      have h1 := hD (i + 1) (by simp; omega)
      simp only [List.getD_cons_succ] at h1
      rwa [eix i] at h1
    have hlastD : (s :: rest).getLastD 0 = rest.getLastD 0 := by
      rw [List.getLastD_cons, getLastD_ne_nil hrestne s 0]
    have hE' : rest.getLastD 0 + bs.getLastD 0 ≤ line.length := by
      rwa [hlastD] at hE
    have hspans' : ∀ i < rest.length, ∀ j, rest.getD i 0 ≤ j →
        j < rest.getD i 0 + bs.getD (ind + 1 + i) 0 → j < line.length →
        line.getD j Cell.unknown ≠ Cell.space := by
      intro i hi j h1 h2 h3
      have h4 := hF (i + 1) (by simp; omega) j
      simp only [List.getD_cons_succ] at h4
      rw [eix i] at h4
      exact h4 h1 h2 h3
    have hgap' : ∀ j, s + bs.getD ind 0 ≤ j → j < line.length →
        (∀ i < rest.length, j < rest.getD i 0 ∨
          rest.getD i 0 + bs.getD (ind + 1 + i) 0 ≤ j) →
        line.getD j Cell.unknown ≠ Cell.painted := by
      intro j h1 h2 hunc
      apply hG j (by omega) h2
      intro i hi
      cases i with
      | zero =>
        right
        simpa using h1
      | succ i =>
        have := hunc i (by simpa using hi)
        simp only [List.getD_cons_succ]
        rwa [eix i]
    have hspecRest : SuffixSpec line bs (ind + 1) (s + bs.getD ind 0)
        (s + bs.getD ind 0 + 1) rest :=
      ⟨hrestne, hrestlen, hhead', hchain', hE', hspans', hgap'⟩
    refine ⟨hm, ?_, ?_, hspecRest⟩
    · rw [not_mem_pySlice]
      intro j h1 h2 h3
      have h4 := hF 0 (by simp) j
      simp only [List.getD_cons_zero, Nat.add_zero] at h4
      exact h4 h1 h2 h3
    · rw [not_mem_pySlice]
      intro j h1 h2 h3
      apply hG j h1 h3
      intro i hi
      cases i with
      | zero =>
        left
        simpa using h2
      | succ i =>
        left
        have hge := suffixSpec_start_mono hspecRest i (by simpa using hi)
        simp only [List.getD_cons_succ]
        omega
  · rintro ⟨hm, hC1, hC2, hspec⟩
    obtain ⟨hrestne, hrestlen, hhead', hchain', hlast', hspans', hgap'⟩ := hspec
    have hrestpos : 0 < rest.length := List.length_pos.2 hrestne
    refine ⟨by simp, ?_, by simpa using hm, ?_, ?_, ?_, ?_⟩
    · simp only [List.length_cons]
      omega
    · intro i hi
      cases i with
      | zero =>
        simp only [List.getD_cons_zero, List.getD_cons_succ, Nat.add_zero]
        rwa [headD_eq_getD] at hhead'
      | succ i =>
        simp only [List.getD_cons_succ]
        rw [eix i]
        exact hchain' i (by simpa using hi)
    · rw [List.getLastD_cons, getLastD_ne_nil hrestne s 0]
      exact hlast'
    · intro i hi j h1 h2 h3
      cases i with
      | zero =>
        simp only [List.getD_cons_zero, Nat.add_zero] at h1 h2
        exact (not_mem_pySlice.1 hC1) j h1 h2 h3
      | succ i =>
        simp only [List.getD_cons_succ] at h1 h2
        rw [eix i] at h2
        exact hspans' i (by simpa using hi) j h1 h2 h3
    · intro j h1 h2 hunc
      have h0 := hunc 0 (by simp)
      simp only [List.getD_cons_zero, Nat.add_zero] at h0
      rcases h0 with h0 | h0
      · exact (not_mem_pySlice.1 hC2) j h1 h0 h2
      · apply hgap' j h0 h2
        intro i hi
        have := hunc (i + 1) (by simpa using hi)
        simp only [List.getD_cons_succ] at this
        rwa [eix i] at this

theorem suffixSpec_single_iff {line : List Cell} {bs : List Nat} {ind e m s : Nat}
    {rest : List Nat} (hind : ind < bs.length) (hlast : ind = bs.length - 1)
    (he : e ≤ m) :
    SuffixSpec line bs ind e m (s :: rest) ↔
      (m ≤ s ∧ (s : Int) ≤ maxStartOverlap bs line.length ind ∧
        Cell.space ∉ pySlice line s (s + bs.getD ind 0) ∧
        Cell.painted ∉ pySlice line e s ∧
        (rest = [] ∧
          Cell.painted ∉ pySlice line (s + bs.getD ind 0) line.length)) := by
  have hbs : bs ≠ [] := by
    intro h
    rw [h] at hind
    exact absurd hind (by simp)
  have hbD : bs.getD ind 0 = bs.getLastD 0 := by
    rw [getLastD_eq_getD_last bs hbs, hlast]
  have hMs : ∀ s' : Nat, ((s' : Int) ≤ maxStartOverlap bs line.length ind
      ↔ s' + bs.getD ind 0 ≤ line.length) := by
    intro s'
    rw [hbD, hlast, maxStartOverlap_last bs line.length hbs]
    omega
  constructor
  · rintro ⟨-, hB, hC, hD, hE, hF, hG⟩
    have hrest : rest = [] := by
      have : rest.length + 1 = bs.length - ind := by simpa using hB
      have : rest.length = 0 := by omega
      exact List.length_eq_zero.1 this
    subst hrest
    have hm : m ≤ s := by simpa using hC
    have hEi : s + bs.getD ind 0 ≤ line.length := by
      have : (s :: ([] : List Nat)).getLastD 0 = s := by simp
      rw [this, ← hbD] at hE
      exact hE
    refine ⟨hm, (hMs s).2 hEi, ?_, ?_, rfl, ?_⟩
    · rw [not_mem_pySlice]
      intro j h1 h2 h3
      have h4 := hF 0 (by simp) j
      simp only [List.getD_cons_zero, Nat.add_zero] at h4
      exact h4 h1 h2 h3
    · rw [not_mem_pySlice]
      intro j h1 h2 h3
      apply hG j h1 h3
      intro i hi
      have : i = 0 := by simpa using hi
      subst this
      left
      simpa using h2
    · rw [not_mem_pySlice]
      intro j h1 h2 h3
      apply hG j (by omega) h2
      intro i hi
      have : i = 0 := by simpa using hi
      subst this
      right
      simpa using h1
  · rintro ⟨hm, hM, hC1, hC2, hrest, hC3⟩
    subst hrest
    have hEi : s + bs.getD ind 0 ≤ line.length := (hMs s).1 hM
    refine ⟨by simp, ?_, by simpa using hm, ?_, ?_, ?_, ?_⟩
    · simp only [List.length_cons, List.length_nil]
      omega
    · intro i hi
      simp at hi
    · have : (s :: ([] : List Nat)).getLastD 0 = s := by simp
      rw [this, ← hbD]
      exact hEi
    · intro i hi j h1 h2 h3
      have : i = 0 := by simpa using hi
      subst this
      simp only [List.getD_cons_zero, Nat.add_zero] at h1 h2
      exact (not_mem_pySlice.1 hC1) j h1 h2 h3
    · intro j h1 h2 hunc
      have h0 := hunc 0 (by simp)
      simp only [List.getD_cons_zero, Nat.add_zero] at h0
      rcases h0 with h0 | h0
      · exact (not_mem_pySlice.1 hC2) j h1 h0 h2
      · exact (not_mem_pySlice.1 hC3) j h0 h2 h2

theorem goodSuffix_iff_suffixSpec (line : List Cell) (bs : List Nat) :
    ∀ ss ind e m, ind < bs.length → e ≤ m →
    (GoodSuffix line bs ind e m ss ↔ SuffixSpec line bs ind e m ss) := by
  intro ss
  induction ss with
  | nil =>
    intro ind e m hind he
    simp only [GoodSuffix]
    constructor
    · intro h
      exact h.elim
    · rintro ⟨hne, -⟩
      exact absurd rfl hne
  | cons s rest ih =>
    intro ind e m hind he
    simp only [GoodSuffix]
    by_cases hlast : ind = bs.length - 1
    · rw [if_pos hlast, suffixSpec_single_iff hind hlast he]
    · rw [if_neg hlast, suffixSpec_cons_iff hind hlast he]
      have hind' : ind + 1 < bs.length := by omega
      have ihrest := ih (ind + 1) (s + bs.getD ind 0) (s + bs.getD ind 0 + 1) hind'
        (by omega)
      constructor
      · rintro ⟨h1, h2, h3, h4, h5⟩
        exact ⟨h1, h3, h4, ihrest.1 h5⟩
      · rintro ⟨h1, h3, h4, h5⟩
        have hgs := ihrest.2 h5
        obtain ⟨hrestne, -⟩ := h5
        refine ⟨h1, ?_, h3, h4, hgs⟩
        cases rest with
        | nil => exact absurd rfl hrestne
        | cons r rest' =>
          simp only [GoodSuffix] at hgs
          obtain ⟨hg1, hg2, -⟩ := hgs
          rw [maxStartOverlap_succ bs line.length ind hind] at hg2
          omega

theorem validStarts_bounds {L : Nat} {bs ss : List Nat} (h : ValidStarts L bs ss) :
    ∀ i < ss.length, ss.getD i 0 + bs.getD i 0 ≤ L := by
  obtain ⟨hlen, hchain, hlast⟩ := h
  have hne : ∀ i, i < ss.length → ss ≠ [] := by
    intro i hi hnil
    rw [hnil] at hi
    exact absurd hi (by simp)
  have key : ∀ d i, i < ss.length → ss.length - 1 - i = d →
      ss.getD i 0 + bs.getD i 0 ≤ L := by
    intro d
    induction d with
    | zero =>
      intro i hi hd
      have hieq : i = ss.length - 1 := by omega
      have hne' := hne i hi
      have h1 : ss.getD i 0 = ss.getLastD 0 := by
        rw [getLastD_eq_getD_last ss hne', hieq]
      have h2 : bs.getD i 0 = bs.getLastD 0 := by
        have hbsne : bs ≠ [] := by
          intro hnil
          rw [hnil, List.length_nil] at hlen
          omega
        rw [getLastD_eq_getD_last bs hbsne, hieq, hlen]
      rw [h1, h2]
      exact hlast hne'
    | succ d ihd =>
      intro i hi hd
      have hi1 : i + 1 < ss.length := by omega
      have hc := hchain i (by omega)
      have := ihd (i + 1) hi1 (by omega)
      omega
  intro i hi
  exact key (ss.length - 1 - i) i hi rfl

theorem suffixSpec_zero_iff (line : List Cell) (bs ss : List Nat) (hbs : bs ≠ []) :
    SuffixSpec line bs 0 0 0 ss ↔
      (ValidStarts line.length bs ss ∧
        agreesWithLine line (optionOfStarts line.length bs ss)) := by
  have hk : 0 < bs.length := List.length_pos.2 hbs
  constructor
  · rintro ⟨hne, hlen, -, hchain, hlast, hspans, hgap⟩
    have hlen' : ss.length = bs.length := by omega
    have hvs : ValidStarts line.length bs ss := by
      refine ⟨hlen', ?_, fun _ => hlast⟩
      intro i hi
      have := hchain i (by omega)
      simpa using this
    refine ⟨hvs, ?_⟩
    intro j hj hfix
    rw [optionOfStarts_getD, if_pos hj]
    by_cases hcov : coveredAt bs ss j
    · rw [if_pos hcov]
      rcases hcov with ⟨i, hi, h1, h2⟩
      have := hspans i hi j h1 (by simpa using h2) hj
      cases hval : line.getD j Cell.unknown with
      | unknown => exact absurd hval hfix
      | space => exact absurd hval this
      | painted => rfl
    · rw [if_neg hcov]
      have huncov : ∀ i < ss.length, j < ss.getD i 0 ∨
          ss.getD i 0 + bs.getD (0 + i) 0 ≤ j := by
        intro i hi
        by_contra hcon
        push_neg at hcon
        exact hcov ⟨i, hi, by omega, by
          have := hcon.2
          simpa using this⟩
      have := hgap j (by omega) hj huncov
      cases hval : line.getD j Cell.unknown with
      | unknown => exact absurd hval hfix
      | space => rfl
      | painted => exact absurd hval this
  · rintro ⟨hvs, hagree⟩
    obtain ⟨hlen, hchain, hlast⟩ := hvs
    have hne : ss ≠ [] := by
      intro hnil
      rw [hnil] at hlen
      simp at hlen
      omega
    have hbounds := validStarts_bounds ⟨hlen, hchain, hlast⟩
    refine ⟨hne, by omega, by omega, ?_, hlast hne, ?_, ?_⟩
    · intro i hi
      have := hchain i (by omega)
      simpa using this
    · intro i hi j h1 h2 h3 hval
      have hcov : coveredAt bs ss j := ⟨i, hi, h1, by simpa using h2⟩
      have := hagree j h3 (by rw [hval]; intro h; exact Cell.noConfusion h)
      rw [optionOfStarts_getD, if_pos h3, if_pos hcov, hval] at this
      exact Cell.noConfusion this
    · intro j _ hj huncov hval
      have hcov : ¬coveredAt bs ss j := by
        rintro ⟨i, hi, h1, h2⟩
        have := huncov i hi
        simp only [Nat.zero_add] at this
        omega
      have := hagree j hj (by rw [hval]; intro h; exact Cell.noConfusion h)
      rw [optionOfStarts_getD, if_pos hj, if_neg hcov, hval] at this
      exact Cell.noConfusion this

theorem generateOption_eq (line : List Cell) (bs : List Nat) :
    generateOption line bs
      = (goodTuples line bs bs.length 0 0 0).map
          (fun ss => optionFromPositions line.length bs ss) := by
  unfold generateOption
  rw [genOptionAux_eq_goodTuples line bs bs.length 0 []]
  simp

theorem mem_generateOption {line : List Cell} {bs : List Nat} (hbs : bs ≠ [])
    (opt : List Cell) :
    opt ∈ generateOption line bs ↔ ValidOption line bs opt := by
  have hk : 0 < bs.length := List.length_pos.2 hbs
  rw [generateOption_eq, List.mem_map]
  unfold ValidOption
  constructor
  · rintro ⟨ss, hss, rfl⟩
    have hgood := (mem_goodTuples line bs bs.length 0 0 0 ss hk (by omega)).1 hss
    have hspec := (goodSuffix_iff_suffixSpec line bs ss 0 0 0 hk (le_refl 0)).1 hgood
    obtain ⟨hvs, hagree⟩ := (suffixSpec_zero_iff line bs ss hbs).1 hspec
    have heq := optionFromPositions_eq_optionOfStarts line.length bs ss
      (validStarts_bounds hvs)
    exact ⟨ss, hvs, heq, by rwa [heq]⟩
  · rintro ⟨ss, hvs, rfl, hagree⟩
    refine ⟨ss, ?_, optionFromPositions_eq_optionOfStarts line.length bs ss
      (validStarts_bounds hvs)⟩
    rw [mem_goodTuples line bs bs.length 0 0 0 ss hk (by omega)]
    rw [goodSuffix_iff_suffixSpec line bs ss 0 0 0 hk (le_refl 0)]
    exact (suffixSpec_zero_iff line bs ss hbs).2 ⟨hvs, hagree⟩

/-! ## Injectivity of the starts-to-option map -/

theorem validStarts_start_mono {L : Nat} {bs ss : List Nat} (h : ValidStarts L bs ss) :
    ∀ d i, i + d < ss.length → ss.getD i 0 ≤ ss.getD (i + d) 0 := by
  obtain ⟨hlen, hchain, -⟩ := h
  intro d
  induction d with
  | zero => intro i _; exact le_refl _
  | succ d ih =>
    intro i hi
    have h1 := ih i (by omega)
    have h2 := hchain (i + d) (by omega)
    have : i + (d + 1) = i + d + 1 := by omega
    rw [this]
    omega

theorem validStarts_tail {L b : Nat} {br : List Nat} {s : Nat} {t : List Nat}
    (h : ValidStarts L (b :: br) (s :: t)) : ValidStarts L br t := by
  obtain ⟨hlen, hchain, hlast⟩ := h
  refine ⟨by simpa using hlen, ?_, ?_⟩
  · intro i hi
    have := hchain (i + 1) (by simp; omega)
    simpa using this
  · intro htne
    have hbrne : br ≠ [] := by
      intro hnil
      rw [hnil] at hlen
      simp at hlen
      exact htne (List.length_eq_zero.1 (by simpa using hlen))
    have h1 := hlast (by simp)
    rw [List.getLastD_cons, List.getLastD_cons, getLastD_ne_nil htne s 0,
      getLastD_ne_nil hbrne b 0] at h1
    exact h1

theorem coveredAt_cons {b : Nat} {br : List Nat} {s : Nat} {t : List Nat} {j : Nat} :
    coveredAt (b :: br) (s :: t) j ↔ ((s ≤ j ∧ j < s + b) ∨ coveredAt br t j) := by
  unfold coveredAt
  constructor
  · rintro ⟨i, hi, h1, h2⟩
    cases i with
    | zero =>
      left
      simp only [List.getD_cons_zero] at h1 h2
      exact ⟨h1, h2⟩
    | succ i =>
      right
      simp only [List.getD_cons_succ] at h1 h2
      exact ⟨i, by simpa using hi, h1, h2⟩
  · rintro (⟨h1, h2⟩ | ⟨i, hi, h1, h2⟩)
    · exact ⟨0, by simp, by simpa using h1, by simpa using h2⟩
    · exact ⟨i + 1, by simpa using hi, by simpa using h1, by simpa using h2⟩

theorem validStarts_inj {L : Nat} {bs : List Nat} (hpos : ∀ b ∈ bs, 0 < b) :
    ∀ ss1 ss2, ValidStarts L bs ss1 → ValidStarts L bs ss2 →
    (∀ j, coveredAt bs ss1 j ↔ coveredAt bs ss2 j) → ss1 = ss2 := by
  induction bs with
  | nil =>
    intro ss1 ss2 h1 h2 _
    have e1 : ss1.length = 0 := by simpa using h1.1
    have e2 : ss2.length = 0 := by simpa using h2.1
    rw [List.length_eq_zero.1 e1, List.length_eq_zero.1 e2]
  | cons b br ih =>
    intro ss1 ss2 h1 h2 hcov
    match ss1, ss2 with
    | [], _ => exact absurd h1.1 (by simp)
    | s1 :: t1, [] => exact absurd h2.1 (by simp)
    | s1 :: t1, s2 :: t2 =>
      have hb : 0 < b := hpos b (by simp)
      have hmono1 := validStarts_start_mono h1
      have hmono2 := validStarts_start_mono h2
      have hcov1 : coveredAt (b :: br) (s1 :: t1) s1 :=
        coveredAt_cons.2 (Or.inl ⟨le_refl _, by omega⟩)
      have hcov2 : coveredAt (b :: br) (s2 :: t2) s2 :=
        coveredAt_cons.2 (Or.inl ⟨le_refl _, by omega⟩)
      have hle12 : s2 ≤ s1 := by
        rcases (hcov s1).1 hcov1 with ⟨i, hi, hc1, hc2⟩
        have := hmono2 i 0 (by simpa using hi)
        simp only [Nat.zero_add, List.getD_cons_zero] at this
        omega
      have hle21 : s1 ≤ s2 := by
        rcases (hcov s2).2 hcov2 with ⟨i, hi, hc1, hc2⟩
        have := hmono1 i 0 (by simpa using hi)
        simp only [Nat.zero_add, List.getD_cons_zero] at this
        omega
      have hseq : s1 = s2 := by omega
      subst hseq
      have htail1 := validStarts_tail h1
      have htail2 := validStarts_tail h2
      have htlow1 : ∀ i < t1.length, s1 + b + 1 ≤ t1.getD i 0 := by
        intro i hi
        have hh := h1.2.1 0 (by simp; omega)
        simp only [List.getD_cons_zero, List.getD_cons_succ] at hh
        have := validStarts_start_mono htail1 i 0 (by simpa using hi)
        simp only [Nat.zero_add] at this
        omega
      have htlow2 : ∀ i < t2.length, s1 + b + 1 ≤ t2.getD i 0 := by
        intro i hi
        have hh := h2.2.1 0 (by simp; omega)
        simp only [List.getD_cons_zero, List.getD_cons_succ] at hh
        have := validStarts_start_mono htail2 i 0 (by simpa using hi)
        simp only [Nat.zero_add] at this
        omega
      have hcovt : ∀ j, coveredAt br t1 j ↔ coveredAt br t2 j := by
        intro j
        constructor
        · intro hc
          have hjlow : s1 + b + 1 ≤ j := by
            rcases hc with ⟨i, hi, hc1, hc2⟩
            have := htlow1 i hi
            omega
          have := (hcov j).1 (coveredAt_cons.2 (Or.inr hc))
          rcases coveredAt_cons.1 this with ⟨hh1, hh2⟩ | hh
          · omega
          · exact hh
        · intro hc
          have hjlow : s1 + b + 1 ≤ j := by
            rcases hc with ⟨i, hi, hc1, hc2⟩
            have := htlow2 i hi
            omega
          have := (hcov j).2 (coveredAt_cons.2 (Or.inr hc))
          rcases coveredAt_cons.1 this with ⟨hh1, hh2⟩ | hh
          · omega
          · exact hh
      rw [ih (fun x hx => hpos x (by simp [hx])) t1 t2 htail1 htail2 hcovt]

theorem optionOfStarts_inj {L : Nat} {bs : List Nat} (hpos : ∀ b ∈ bs, 0 < b)
    {ss1 ss2 : List Nat} (h1 : ValidStarts L bs ss1) (h2 : ValidStarts L bs ss2)
    (heq : optionOfStarts L bs ss1 = optionOfStarts L bs ss2) : ss1 = ss2 := by
  apply validStarts_inj hpos ss1 ss2 h1 h2
  intro j
  by_cases hj : j < L
  · have := congrArg (fun l => List.getD l j Cell.unknown) heq
    simp only at this
    rw [optionOfStarts_getD, optionOfStarts_getD, if_pos hj, if_pos hj] at this
    by_cases hc1 : coveredAt bs ss1 j
    · rw [if_pos hc1] at this
      by_cases hc2 : coveredAt bs ss2 j
      · exact iff_of_true hc1 hc2
      · rw [if_neg hc2] at this
        exact absurd this (by intro h; exact Cell.noConfusion h)
    · rw [if_neg hc1] at this
      by_cases hc2 : coveredAt bs ss2 j
      · rw [if_pos hc2] at this
        exact absurd this (by intro h; exact Cell.noConfusion h)
      · exact iff_of_false hc1 hc2
  · constructor
    · intro hc
      rcases hc with ⟨i, hi, hcc1, hcc2⟩
      have := validStarts_bounds h1 i hi
      omega
    · intro hc
      rcases hc with ⟨i, hi, hcc1, hcc2⟩
      have := validStarts_bounds h2 i hi
      omega

theorem lex_lt_irrefl : ∀ l : List Nat, ¬ List.Lex (· < ·) l l := by
  intro l h
  induction l with
  | nil => cases h
  | cons a l ih =>
    cases h with
    | cons h => exact ih h
    | rel h => exact lt_irrefl _ h

/-! ## Reversal symmetry -/

theorem getD_reverse' (l : List Cell) (i : Nat) (h : i < l.length) (d : Cell) :
    l.reverse.getD i d = l.getD (l.length - 1 - i) d := by
  rw [List.getD_eq_getElem _ _ (by simpa using h), List.getElem_reverse,
    List.getD_eq_getElem _ _ (by omega)]

theorem getD_reverse_nat (l : List Nat) (i : Nat) (h : i < l.length) (d : Nat) :
    l.reverse.getD i d = l.getD (l.length - 1 - i) d := by
  rw [List.getD_eq_getElem _ _ (by simpa using h), List.getElem_reverse,
    List.getD_eq_getElem _ _ (by omega)]

theorem validOption_reverse_exists {line : List Cell} {bs : List Nat} (hbs : bs ≠ [])
    (h : ∃ opt, ValidOption line bs opt) :
    ∃ opt, ValidOption line.reverse bs.reverse opt := by
  classical
  obtain ⟨opt, ss, hvs, rfl, hagree⟩ := h
  set L := line.length with hL
  set k := bs.length with hk
  have hklen : ss.length = k := hvs.1
  have hbounds := validStarts_bounds hvs
  have hchain := hvs.2.1
  have hkpos : 0 < k := List.length_pos.2 hbs
  -- the reversed start positions
  set ss' : List Nat := (List.range k).map
    (fun i => L - (ss.getD (k - 1 - i) 0 + bs.getD (k - 1 - i) 0)) with hss'
  have hss'len : ss'.length = k := by simp [hss']
  have hss'getD : ∀ i < k, ss'.getD i 0
      = L - (ss.getD (k - 1 - i) 0 + bs.getD (k - 1 - i) 0) := by
    intro i hi
    rw [hss', getD_map_range, if_pos hi]
  have hbrev : ∀ i < k, bs.reverse.getD i 0 = bs.getD (k - 1 - i) 0 := by
    intro i hi
    exact getD_reverse_nat bs i (by omega) 0
  have hlastidx : ∀ l : List Nat, l.length = k → l.getLastD 0 = l.getD (k - 1) 0 := by
    intro l hl
    have hlne : l ≠ [] := by
      intro hnil
      rw [hnil] at hl
      simp at hl
      omega
    rw [getLastD_eq_getD_last l hlne, hl]
  -- validity of the reversed starts
  have hvs' : ValidStarts L bs.reverse ss' := by
    refine ⟨by simpa using hss'len, ?_, ?_⟩
    · intro i hi
      rw [hss'len] at hi
      have h1 := hss'getD i (by omega)
      have h2 := hss'getD (i + 1) (by omega)
      have h3 := hbrev i (by omega)
      have idx : k - 1 - (i + 1) + 1 = k - 1 - i := by omega
      have hch := hchain (k - 1 - (i + 1)) (by omega)
      rw [idx] at hch
      have hb1 := hbounds (k - 1 - i) (by omega)
      have hb2 := hbounds (k - 1 - (i + 1)) (by omega)
      rw [h1, h2, h3]
      omega
    · intro hne
      rw [hlastidx ss' hss'len, hlastidx bs.reverse (by rw [List.length_reverse])]
      have h1 := hss'getD (k - 1) (by omega)
      have h2 := hbrev (k - 1) (by omega)
      have idx : k - 1 - (k - 1) = 0 := by omega
      rw [h1, h2, idx]
      have hb := hbounds 0 (by omega)
      omega
  -- the reversed option is the reverse of the original option
  have hcovrev : ∀ j < L, (coveredAt bs.reverse ss' j ↔ coveredAt bs ss (L - 1 - j)) := by
    intro j hj
    constructor
    · rintro ⟨i, hi, h1, h2⟩
      rw [hss'len] at hi
      rw [hss'getD i hi] at h1 h2
      rw [hbrev i hi] at h2
      have hb := hbounds (k - 1 - i) (by omega)
      exact ⟨k - 1 - i, by omega, by omega, by omega⟩
    · rintro ⟨i', hi', h1, h2⟩
      rw [hklen] at hi'
      refine ⟨k - 1 - i', by rw [hss'len]; omega, ?_, ?_⟩
      · rw [hss'getD (k - 1 - i') (by omega)]
        have idx : k - 1 - (k - 1 - i') = i' := by omega
        rw [idx]
        have hb := hbounds i' (by omega)
        omega
      · rw [hss'getD (k - 1 - i') (by omega), hbrev (k - 1 - i') (by omega)]
        have idx : k - 1 - (k - 1 - i') = i' := by omega
        rw [idx]
        have hb := hbounds i' (by omega)
        omega
  refine ⟨optionOfStarts line.reverse.length bs.reverse ss', ss', ?_, rfl, ?_⟩
  · rwa [List.length_reverse]
  · intro j hj hfix
    rw [List.length_reverse] at hj
    have hfixo : line.getD (L - 1 - j) Cell.unknown ≠ Cell.unknown := by
      rwa [getD_reverse' line j (by omega)] at hfix
    have := hagree (L - 1 - j) (by omega) hfixo
    rw [optionOfStarts_getD] at this
    rw [List.length_reverse, optionOfStarts_getD, if_pos hj,
      getD_reverse' line j (by omega)]
    rw [if_pos (by omega : L - 1 - j < L)] at this
    by_cases hcov : coveredAt bs ss (L - 1 - j)
    · rw [if_pos ((hcovrev j hj).2 hcov)]
      rwa [if_pos hcov] at this
    · rw [if_neg (fun hc => hcov ((hcovrev j hj).1 hc))]
      rwa [if_neg hcov] at this

theorem validOption_exists_reverse_iff {line : List Cell} {bs : List Nat} (hbs : bs ≠ []) :
    (∃ opt, ValidOption line.reverse bs.reverse opt) ↔ ∃ opt, ValidOption line bs opt := by
  constructor
  · intro h
    have := validOption_reverse_exists (by simpa using hbs) h
    rwa [List.reverse_reverse, List.reverse_reverse] at this
  · exact validOption_reverse_exists hbs

/-! ## Structure of updateLine -/

theorem generateOption_eq_nil_iff {line : List Cell} {bs : List Nat} (hbs : bs ≠ []) :
    generateOption line bs = [] ↔ ¬∃ opt, ValidOption line bs opt := by
  rw [List.eq_nil_iff_forall_not_mem]
  constructor
  · rintro h ⟨opt, hopt⟩
    exact h opt ((mem_generateOption hbs opt).2 hopt)
  · intro h opt hmem
    exact h ⟨opt, (mem_generateOption hbs opt).1 hmem⟩

theorem foldl_set_length (pl : List (Nat × Nat)) (states acc : List Cell) :
    (pl.foldl (fun acc p => acc.set p.2 (states.getD p.1 Cell.unknown)) acc).length
      = acc.length := by
  induction pl generalizing acc with
  | nil => rfl
  | cons p rest ih => rw [List.foldl_cons, ih, List.length_set]

theorem foldl_set_not_mem (pl : List (Nat × Nat)) (states acc : List Cell) (q : Nat)
    (hq : q ∉ pl.map Prod.snd) :
    (pl.foldl (fun acc p => acc.set p.2 (states.getD p.1 Cell.unknown)) acc).getD q
        Cell.unknown
      = acc.getD q Cell.unknown := by
  induction pl generalizing acc with
  | nil => rfl
  | cons p rest ih =>
    have hq1 : p.2 ≠ q := fun hc => hq (by rw [List.map_cons, ← hc]; exact List.mem_cons_self _ _)
    have hq2 : q ∉ rest.map Prod.snd := fun hc =>
      hq (by rw [List.map_cons]; exact List.mem_cons_of_mem _ hc)
    rw [List.foldl_cons, ih _ hq2, getD_set', if_neg (fun hc => hq1 hc.1)]

theorem foldl_set_mem (pl : List (Nat × Nat)) (states acc : List Cell) (i q : Nat)
    (hnd : (pl.map Prod.snd).Nodup) (hmem : (i, q) ∈ pl) (hq : q < acc.length) :
    (pl.foldl (fun acc p => acc.set p.2 (states.getD p.1 Cell.unknown)) acc).getD q
        Cell.unknown
      = states.getD i Cell.unknown := by
  induction pl generalizing acc with
  | nil => exact absurd hmem (List.not_mem_nil _)
  | cons p rest ih =>
    rw [List.map_cons, List.nodup_cons] at hnd
    rcases List.mem_cons.1 hmem with rfl | hmem'
    · rw [List.foldl_cons]
      rw [foldl_set_not_mem rest states _ q (by simpa using hnd.1)]
      rw [getD_set', if_pos ⟨rfl, hq⟩]
    · rw [List.foldl_cons]
      exact ih _ hnd.2 hmem' (by rwa [List.length_set])

theorem getD_map_enum {α : Type} (l : List Nat) (f : Nat × Nat → α) (i : Nat)
    (hi : i < l.length) (d : α) :
    ((l.enum.map f).getD i d) = f (i, l.getD i 0) := by
  have hlen : (l.enum.map f).length = l.length := by simp
  rw [List.getD_eq_getElem _ _ (by omega), List.getElem_map, List.getElem_enum,
    List.getD_eq_getElem _ _ hi]

theorem getD_map_list {α : Type} (l : List Nat) (f : Nat → α) (i : Nat)
    (hi : i < l.length) (d : α) :
    ((l.map f).getD i d) = f (l.getD i 0) := by
  rw [List.getD_eq_getElem _ _ (by simpa using hi), List.getElem_map,
    List.getD_eq_getElem _ _ hi]

/-- The unknown positions of a line. -/
theorem mem_positionsToCheck {line : List Cell} {q : Nat} :
    q ∈ (List.range line.length).filter
        (fun ind => line.getD ind Cell.unknown = Cell.unknown)
      ↔ q < line.length ∧ line.getD q Cell.unknown = Cell.unknown := by
  rw [List.mem_filter, List.mem_range]
  constructor
  · rintro ⟨h1, h2⟩
    exact ⟨h1, of_decide_eq_true h2⟩
  · rintro ⟨h1, h2⟩
    exact ⟨h1, decide_eq_true h2⟩

theorem nodup_positionsToCheck (line : List Cell) :
    ((List.range line.length).filter
      (fun ind => line.getD ind Cell.unknown = Cell.unknown)).Nodup :=
  (List.nodup_range _).filter _

theorem not_replicate_iff {line : List Cell} :
    line ≠ List.replicate line.length Cell.unknown ↔
      ∃ q < line.length, line.getD q Cell.unknown ≠ Cell.unknown := by
  constructor
  · intro h
    by_contra hc
    push_neg at hc
    apply h
    apply list_eq_of_getD (by simp)
    intro j
    rw [getD_replicate']
    rcases lt_or_le j line.length with hj | hj
    · rw [if_pos hj]
      exact hc j hj
    · rw [if_neg (by omega), List.getD_eq_default _ _ hj]
  · rintro ⟨q, hq, hne⟩ heq
    rw [heq, getD_replicate', if_pos hq] at hne
    exact hne rfl

theorem updateLine_none_iff (line : List Cell) (bs : List Nat) :
    updateLine line bs = none ↔
      (line ≠ List.replicate line.length Cell.unknown ∧ generateOption line bs = []) := by
  unfold updateLine
  by_cases hall : line = List.replicate line.length Cell.unknown
  · rw [if_pos hall]
    constructor
    · intro h
      exact Option.noConfusion h
    · rintro ⟨h1, -⟩
      exact absurd hall h1
  · rw [if_neg hall]
    cases hgen : generateOption line bs with
    | nil => exact ⟨fun _ => ⟨hall, rfl⟩, fun _ => rfl⟩
    | cons o rest =>
      constructor
      · intro h
        exact Option.noConfusion h
      · rintro ⟨-, h2⟩
        exact absurd h2 (by simp)

theorem updateLine_length {line : List Cell} {bs : List Nat} {out : List Cell}
    (h : updateLine line bs = some out) : out.length = line.length := by
  unfold updateLine at h
  by_cases hall : line = List.replicate line.length Cell.unknown
  · rw [if_pos hall] at h
    cases h
    rfl
  · rw [if_neg hall] at h
    cases hgen : generateOption line bs with
    | nil => rw [hgen] at h; cases h
    | cons o rest =>
      rw [hgen] at h
      simp only [Option.some_inj] at h
      rw [← h, foldl_set_length]

theorem updateLine_fixed {line : List Cell} {bs : List Nat} {out : List Cell}
    (h : updateLine line bs = some out) (q : Nat)
    (hfix : line.getD q Cell.unknown ≠ Cell.unknown) :
    out.getD q Cell.unknown = line.getD q Cell.unknown := by
  unfold updateLine at h
  by_cases hall : line = List.replicate line.length Cell.unknown
  · rw [if_pos hall] at h
    cases h
    rfl
  · rw [if_neg hall] at h
    cases hgen : generateOption line bs with
    | nil => rw [hgen] at h; cases h
    | cons o rest =>
      rw [hgen] at h
      simp only [Option.some_inj] at h
      rw [← h]
      apply foldl_set_not_mem
      rw [List.enum_map_snd]
      intro hmem
      exact hfix (mem_positionsToCheck.1 hmem).2


theorem updateLine_unknown_val {line : List Cell} {bs : List Nat} {out : List Cell}
    {o₀ : List Cell} {rest' : List (List Cell)}
    (hall : line ≠ List.replicate line.length Cell.unknown)
    (hgen : generateOption line bs = o₀ :: rest')
    (hupd : updateLine line bs = some out) (q : Nat) (hq : q < line.length)
    (hU : line.getD q Cell.unknown = Cell.unknown) :
    out.getD q Cell.unknown =
      (if (if 2 * q < line.length then
            generateOption (line.set q
              (if o₀.getD q Cell.unknown = Cell.space then Cell.painted else Cell.space)) bs
          else
            (generateOption (line.set q
              (if o₀.getD q Cell.unknown = Cell.space then Cell.painted
                else Cell.space)).reverse bs.reverse)).isEmpty
      then o₀.getD q Cell.unknown else Cell.unknown) := by
  unfold updateLine at hupd
  rw [if_neg hall, hgen] at hupd
  simp only [Option.some_inj] at hupd
  have hmem : q ∈ (List.range line.length).filter
      (fun ind => line.getD ind Cell.unknown = Cell.unknown) :=
    mem_positionsToCheck.2 ⟨hq, hU⟩
  obtain ⟨i, hi, hgetq⟩ := List.mem_iff_getElem.1 hmem
  have hgetD : ((List.range line.length).filter
      (fun ind => line.getD ind Cell.unknown = Cell.unknown)).getD i 0 = q := by
    rw [List.getD_eq_getElem _ _ hi, hgetq]
  have hpair : (i, q) ∈ ((List.range line.length).filter
      (fun ind => line.getD ind Cell.unknown = Cell.unknown)).enum := by
    rw [List.mem_enum_iff_getElem?, List.getElem?_eq_getElem hi, hgetq]
  rw [← hupd]
  rw [foldl_set_mem _ _ _ i q
    (by rw [List.enum_map_snd]; exact nodup_positionsToCheck line) hpair hq]
  rw [getD_map_enum _ _ i hi]
  simp only [hgetD]
  rw [getD_map_list _ _ i hi, hgetD]

theorem agrees_set_iff {line : List Cell} {q : Nat} {v : Cell}
    (hq : q < line.length) (hU : line.getD q Cell.unknown = Cell.unknown)
    (hv : v ≠ Cell.unknown) (opt : List Cell) :
    agreesWithLine (line.set q v) opt ↔
      (agreesWithLine line opt ∧ opt.getD q Cell.unknown = v) := by
  unfold agreesWithLine
  constructor
  · intro h
    constructor
    · intro j hj hfix
      have hjq : j ≠ q := by
        intro hc
        rw [hc] at hfix
        exact hfix hU
      have := h j (by rwa [List.length_set])
        (by rw [getD_set', if_neg (fun hc => hjq hc.1.symm)]; exact hfix)
      rwa [getD_set', if_neg (fun hc => hjq hc.1.symm)] at this
    · have := h q (by rwa [List.length_set])
        (by rw [getD_set', if_pos ⟨rfl, hq⟩]; exact hv)
      rwa [getD_set', if_pos ⟨rfl, hq⟩] at this
  · rintro ⟨h1, h2⟩
    intro j hj hfix
    rw [List.length_set] at hj
    by_cases hjq : j = q
    · subst hjq
      rw [getD_set', if_pos ⟨rfl, hq⟩]
      exact h2
    · rw [getD_set', if_neg (fun hc => hjq hc.1.symm)] at hfix ⊢
      exact h1 j hj hfix

theorem validOption_set_iff {line : List Cell} {bs : List Nat} {q : Nat} {v : Cell}
    (hq : q < line.length) (hU : line.getD q Cell.unknown = Cell.unknown)
    (hv : v ≠ Cell.unknown) (opt : List Cell) :
    ValidOption (line.set q v) bs opt ↔
      (ValidOption line bs opt ∧ opt.getD q Cell.unknown = v) := by
  unfold ValidOption
  rw [List.length_set]
  constructor
  · rintro ⟨ss, hvs, rfl, hagree⟩
    obtain ⟨ha, hb⟩ := (agrees_set_iff hq hU hv _).1 hagree
    exact ⟨⟨ss, hvs, rfl, ha⟩, hb⟩
  · rintro ⟨⟨ss, hvs, rfl, hagree⟩, hval⟩
    exact ⟨ss, hvs, rfl, (agrees_set_iff hq hU hv _).2 ⟨hagree, hval⟩⟩

theorem validOption_cell {line : List Cell} {bs : List Nat} {opt : List Cell}
    (h : ValidOption line bs opt) (q : Nat) (hq : q < line.length) :
    opt.getD q Cell.unknown = Cell.painted ∨ opt.getD q Cell.unknown = Cell.space := by
  obtain ⟨ss, hvs, rfl, -⟩ := h
  rw [optionOfStarts_getD, if_pos hq]
  by_cases hcov : coveredAt bs ss q
  · left
    rw [if_pos hcov]
  · right
    rw [if_neg hcov]

theorem updateLine_all_unknown {line : List Cell} (bs : List Nat)
    (h : line = List.replicate line.length Cell.unknown) :
    updateLine line bs = some line := by
  unfold updateLine
  rw [if_pos h]

theorem updateLine_unknown_char {line : List Cell} {bs : List Nat} {out : List Cell}
    (hbs : bs ≠ [])
    (hall : line ≠ List.replicate line.length Cell.unknown)
    (hex : ∃ opt, ValidOption line bs opt)
    (hupd : updateLine line bs = some out) (q : Nat) (hq : q < line.length)
    (hU : line.getD q Cell.unknown = Cell.unknown) :
    (out.getD q Cell.unknown = Cell.painted ↔
      ∀ opt, ValidOption line bs opt → opt.getD q Cell.unknown = Cell.painted) ∧
    (out.getD q Cell.unknown = Cell.space ↔
      ∀ opt, ValidOption line bs opt → opt.getD q Cell.unknown = Cell.space) ∧
    (out.getD q Cell.unknown = Cell.unknown ↔
      ((∃ opt, ValidOption line bs opt ∧ opt.getD q Cell.unknown = Cell.painted) ∧
       (∃ opt, ValidOption line bs opt ∧ opt.getD q Cell.unknown = Cell.space))) := by
  have hgenne : generateOption line bs ≠ [] := by
    rw [Ne, generateOption_eq_nil_iff hbs]
    intro h
    exact h hex
  obtain ⟨o₀, rest', hgen⟩ : ∃ o₀ rest', generateOption line bs = o₀ :: rest' := by
    cases hg : generateOption line bs with
    | nil => exact absurd hg hgenne
    | cons a l => exact ⟨a, l, rfl⟩
  have ho₀ : ValidOption line bs o₀ :=
    (mem_generateOption hbs o₀).1 (by rw [hgen]; exact List.mem_cons_self _ _)
  have hval := updateLine_unknown_val hall hgen hupd q hq hU
  set hyp := o₀.getD q Cell.unknown with hhyp
  set opp : Cell := if hyp = Cell.space then Cell.painted else Cell.space with hopp
  have hoppne : opp ≠ Cell.unknown := by
    rw [hopp]
    by_cases h : hyp = Cell.space
    · rw [if_pos h]
      intro hc
      exact Cell.noConfusion hc
    · rw [if_neg h]
      intro hc
      exact Cell.noConfusion hc
  have hprobe : ∀ opt, ValidOption (line.set q opp) bs opt ↔
      (ValidOption line bs opt ∧ opt.getD q Cell.unknown = opp) :=
    validOption_set_iff hq hU hoppne
  have hempty : (if 2 * q < line.length then
        generateOption (line.set q opp) bs
      else (generateOption (line.set q opp).reverse bs.reverse)).isEmpty = true ↔
      ¬∃ opt, ValidOption line bs opt ∧ opt.getD q Cell.unknown = opp := by
    by_cases hside : 2 * q < line.length
    · rw [if_pos hside, List.isEmpty_iff, generateOption_eq_nil_iff hbs]
      constructor
      · intro h ⟨opt, h1, h2⟩
        exact h ⟨opt, (hprobe opt).2 ⟨h1, h2⟩⟩
      · intro h ⟨opt, hopt⟩
        exact h ⟨opt, (hprobe opt).1 hopt⟩
    · rw [if_neg hside, List.isEmpty_iff, generateOption_eq_nil_iff (by simpa using hbs)]
      rw [validOption_exists_reverse_iff hbs]
      constructor
      · intro h ⟨opt, h1, h2⟩
        exact h ⟨opt, (hprobe opt).2 ⟨h1, h2⟩⟩
      · intro h ⟨opt, hopt⟩
        exact h ⟨opt, (hprobe opt).1 hopt⟩
  have hcases := validOption_cell ho₀ q hq
  rw [← hhyp] at hcases
  have hexhyp : ∃ opt, ValidOption line bs opt ∧ opt.getD q Cell.unknown = hyp :=
    ⟨o₀, ho₀, rfl⟩
  rcases hcases with hpnt | hspc
  · -- hypothesis value is painted, probe pins space
    have hoppeq : opp = Cell.space := by
      rw [hopp, hpnt]
      rfl
    rw [hoppeq] at hempty
    by_cases hemp : ∃ opt, ValidOption line bs opt ∧ opt.getD q Cell.unknown = Cell.space
    · have : out.getD q Cell.unknown = Cell.unknown := by
        rw [hval]
        rw [if_neg (by rw [hoppeq, hempty]; simpa using hemp)]
      rw [this]
      refine ⟨?_, ?_, ?_⟩
      · constructor
        · intro hc
          exact absurd hc (by intro hcc; exact Cell.noConfusion hcc)
        · intro hforall
          rcases hemp with ⟨opt, h1, h2⟩
          have := hforall opt h1
          rw [this] at h2
          exact absurd h2 (by intro hcc; exact Cell.noConfusion hcc)
      · constructor
        · intro hc
          exact absurd hc (by intro hcc; exact Cell.noConfusion hcc)
        · intro hforall
          have := hforall o₀ ho₀
          rw [← hhyp, hpnt] at this
          exact absurd this (by intro hcc; exact Cell.noConfusion hcc)
      · exact iff_of_true rfl ⟨by rwa [hpnt] at hexhyp, hemp⟩
    · have : out.getD q Cell.unknown = Cell.painted := by
        rw [hval, if_pos (by rw [hoppeq, hempty]; exact hemp), hpnt]
      rw [this]
      refine ⟨?_, ?_, ?_⟩
      · refine iff_of_true rfl ?_
        intro opt hopt
        rcases validOption_cell hopt q hq with h | h
        · exact h
        · exact absurd ⟨opt, hopt, h⟩ hemp
      · constructor
        · intro hc
          exact absurd hc (by intro hcc; exact Cell.noConfusion hcc)
        · intro hforall
          have := hforall o₀ ho₀
          rw [← hhyp, hpnt] at this
          exact absurd this (by intro hcc; exact Cell.noConfusion hcc)
      · constructor
        · intro hc
          exact absurd hc (by intro hcc; exact Cell.noConfusion hcc)
        · rintro ⟨-, hsp⟩
          exact absurd hsp hemp
  · -- hypothesis value is space, probe pins painted
    have hoppeq : opp = Cell.painted := by
      rw [hopp, hspc]
      rfl
    rw [hoppeq] at hempty
    by_cases hemp : ∃ opt, ValidOption line bs opt ∧ opt.getD q Cell.unknown = Cell.painted
    · have : out.getD q Cell.unknown = Cell.unknown := by
        rw [hval]
        rw [if_neg (by rw [hoppeq, hempty]; simpa using hemp)]
      rw [this]
      refine ⟨?_, ?_, ?_⟩
      · constructor
        · intro hc
          exact absurd hc (by intro hcc; exact Cell.noConfusion hcc)
        · intro hforall
          have := hforall o₀ ho₀
          rw [← hhyp, hspc] at this
          exact absurd this (by intro hcc; exact Cell.noConfusion hcc)
      · constructor
        · intro hc
          exact absurd hc (by intro hcc; exact Cell.noConfusion hcc)
        · intro hforall
          rcases hemp with ⟨opt, h1, h2⟩
          have := hforall opt h1
          rw [this] at h2
          exact absurd h2 (by intro hcc; exact Cell.noConfusion hcc)
      · exact iff_of_true rfl ⟨hemp, by rwa [hspc] at hexhyp⟩
    · have : out.getD q Cell.unknown = Cell.space := by
        rw [hval, if_pos (by rw [hoppeq, hempty]; exact hemp), hspc]
      rw [this]
      refine ⟨?_, ?_, ?_⟩
      · constructor
        · intro hc
          exact absurd hc (by intro hcc; exact Cell.noConfusion hcc)
        · intro hforall
          have := hforall o₀ ho₀
          rw [← hhyp, hspc] at this
          exact absurd this (by intro hcc; exact Cell.noConfusion hcc)
      · refine iff_of_true rfl ?_
        intro opt hopt
        rcases validOption_cell hopt q hq with h | h
        · exact absurd ⟨opt, hopt, h⟩ hemp
        · exact h
      · constructor
        · intro hc
          exact absurd hc (by intro hcc; exact Cell.noConfusion hcc)
        · rintro ⟨hpt, -⟩
          exact absurd hpt hemp

/-! ## Counting options on the empty line -/

theorem not_mem_pySlice_replicate (L a b : Nat) (c : Cell) (hc : c ≠ Cell.unknown) :
    c ∉ pySlice (List.replicate L Cell.unknown) a b := by
  rw [not_mem_pySlice]
  intro j _ _ hj
  rw [getD_replicate', if_pos (by simpa using hj)]
  exact fun h => hc h.symm

theorem sum_choose_helper :
    ∀ N t, ((List.range (N + 1)).map (fun d => Nat.choose ((N - d) + t) t)).sum
      = Nat.choose (N + t + 1) (t + 1) := by
  intro N
  induction N with
  | zero =>
    intro t
    simp [Nat.choose_self, Nat.choose_succ_self_right]
  | succ N ih =>
    intro t
    rw [List.range_succ_eq_map, List.map_cons, List.sum_cons, List.map_map]
    have : ((List.range (N + 1)).map
        ((fun d => Nat.choose ((N + 1 - d) + t) t) ∘ Nat.succ)).sum
        = ((List.range (N + 1)).map (fun d => Nat.choose ((N - d) + t) t)).sum := by
      apply congrArg
      apply List.map_congr_left
      intro d hd
      simp only [Function.comp]
      congr 2
      omega
    rw [this, ih t]
    have h1 : N + 1 - 0 + t = N + t + 1 := by omega
    rw [h1]
    have h3 : N + 1 + t + 1 = (N + t + 1) + 1 := by omega
    rw [h3]
    exact (Nat.choose_succ_succ (N + t + 1) t).symm

theorem length_flatMap' {α β : Type} (l : List α) (f : α → List β) :
    (l.flatMap f).length = (l.map (fun a => (f a).length)).sum := by
  induction l with
  | nil => rfl
  | cons a l ih => simp only [List.flatMap_cons, List.map_cons, List.sum_cons,
      List.length_append, ih]

theorem sum_map_range_congr (n : Nat) (f g : Nat → Nat) (h : ∀ d < n, f d = g d) :
    ((List.range n).map f).sum = ((List.range n).map g).sum := by
  apply congrArg
  apply List.map_congr_left
  intro d hd
  exact h d (List.mem_range.1 hd)

theorem sum_map_range_one (n : Nat) : ((List.range n).map (fun _ => 1)).sum = n := by
  induction n with
  | zero => rfl
  | succ n ih => rw [List.range_succ, List.map_append, List.sum_append, ih]; rfl

theorem goodTuples_unknown_unfold (L : Nat) (bs : List Nat) (fuel ind e m : Nat) :
    goodTuples (List.replicate L Cell.unknown) bs (fuel + 1) ind e m
      = ((List.range (maxStartOverlap bs L ind + 1 - (m : Int)).toNat).map
          (· + m)).flatMap
          (fun s => if ind ≠ bs.length - 1 then
              (goodTuples (List.replicate L Cell.unknown) bs fuel (ind + 1)
                  (s + bs.getD ind 0) (s + bs.getD ind 0 + 1)).map (s :: ·)
            else [[s]]) := by
  rw [goodTuples]
  simp only [List.length_replicate]
  apply List.flatMap_congr
  intro s _
  rw [if_pos]
  exact ⟨not_mem_pySlice_replicate L _ _ _ (by intro h; exact Cell.noConfusion h),
    not_mem_pySlice_replicate L _ _ _ (by intro h; exact Cell.noConfusion h),
    fun _ => not_mem_pySlice_replicate L _ _ _ (by intro h; exact Cell.noConfusion h)⟩

theorem goodTuples_length_unknown (L : Nat) (bs : List Nat) :
    ∀ fuel ind e : Nat, ∀ m : Nat, ind < bs.length → fuel = bs.length - ind →
      (m : Int) ≤ maxStartOverlap bs L ind →
      (goodTuples (List.replicate L Cell.unknown) bs fuel ind e m).length
        = Nat.choose ((maxStartOverlap bs L ind - (m : Int)).toNat + (bs.length - ind))
            (bs.length - ind) := by
  intro fuel
  induction fuel with
  | zero =>
    intro ind e m hind hfuel hm
    omega
  | succ fuel ih =>
    intro ind e m hind hfuel hm
    rw [goodTuples_unknown_unfold, length_flatMap', List.map_map]
    set M : Int := maxStartOverlap bs L ind with hM
    set r : Nat := bs.length - ind with hr
    set N : Nat := (M - (m : Int)).toNat with hN
    have hn : (M + 1 - (m : Int)).toNat = N + 1 := by omega
    rw [hn]
    by_cases hlast : ind = bs.length - 1
    · have hr1 : r = 1 := by omega
      calc ((List.range (N + 1)).map _).sum
          = ((List.range (N + 1)).map (fun _ => 1)).sum := by
            apply sum_map_range_congr
            intro d _
            simp only [Function.comp]
            rw [if_neg (by simpa using hlast)]
            rfl
        _ = N + 1 := sum_map_range_one (N + 1)
        _ = Nat.choose (N + r) r := by
            rw [hr1, Nat.choose_one_right]
    · have hind1 : ind + 1 < bs.length := by omega
      have hsucc : maxStartOverlap bs L (ind + 1) = M + bs.getD ind 0 + 1 := by
        rw [hM]
        exact maxStartOverlap_succ bs L ind hind
      calc ((List.range (N + 1)).map _).sum
          = ((List.range (N + 1)).map
              (fun d => Nat.choose ((N - d) + (r - 1)) (r - 1))).sum := by
            apply sum_map_range_congr
            intro d hd
            simp only [Function.comp]
            rw [if_pos hlast, List.length_map]
            rw [ih (ind + 1) (d + m + bs.getD ind 0) (d + m + bs.getD ind 0 + 1) hind1
              (by omega) (by rw [hsucc]; omega)]
            rw [hsucc]
            congr 1
            omega
        _ = Nat.choose (N + (r - 1) + 1) ((r - 1) + 1) := sum_choose_helper N (r - 1)
        _ = Nat.choose (N + r) r := by
            congr 1 <;> omega

theorem generateOption_length_unknown (L : Nat) (bs : List Nat) (hbs : bs ≠ [])
    (hfit : bs.sum + (bs.length - 1) ≤ L) :
    (generateOption (List.replicate L Cell.unknown) bs).length
      = Nat.choose (L - bs.sum + 1) bs.length := by
  have hk : 0 < bs.length := List.length_pos.2 hbs
  have hM : maxStartOverlap bs L 0 = (L : Int) - (bs.sum : Int) - ((bs.length : Int) - 1) := by
    unfold maxStartOverlap
    rw [List.drop_zero]
    push_cast
    ring
  rw [generateOption_eq, List.length_map]
  rw [goodTuples_length_unknown L bs bs.length 0 0 0 hk (by omega)
    (by rw [hM]; omega)]
  rw [hM]
  have h1 : ((L : Int) - (bs.sum : Int) - ((bs.length : Int) - 1) - ((0 : Nat) : Int)).toNat
      = L - bs.sum - (bs.length - 1) := by omega
  rw [h1]
  congr 1
  omega

theorem estimate_arith_le {fN k : Nat} (hk : 0 < k) (hkf : k ≤ fN) :
    Nat.factorial fN / Nat.factorial k / Nat.factorial (fN - k)
      + Nat.factorial fN / Nat.factorial (k - 1) / Nat.factorial (fN + 1 - k)
    = Nat.choose (fN + 1) k := by
  have h1 : Nat.factorial fN / Nat.factorial k / Nat.factorial (fN - k)
      = Nat.choose fN k := by
    rw [Nat.div_div_eq_div_mul]
    exact (Nat.choose_eq_factorial_div_factorial hkf).symm
  have h2 : Nat.factorial fN / Nat.factorial (k - 1) / Nat.factorial (fN + 1 - k)
      = Nat.choose fN (k - 1) := by
    rw [Nat.div_div_eq_div_mul]
    have he : fN + 1 - k = fN - (k - 1) := by omega
    rw [he]
    exact (Nat.choose_eq_factorial_div_factorial (by omega)).symm
  rw [h1, h2]
  have hkk : k = (k - 1) + 1 := by omega
  calc Nat.choose fN k + Nat.choose fN (k - 1)
      = Nat.choose fN (k - 1) + Nat.choose fN ((k - 1) + 1) := by
        rw [← hkk]
        omega
    _ = Nat.choose (fN + 1) ((k - 1) + 1) := (Nat.choose_succ_succ fN (k - 1)).symm
    _ = Nat.choose (fN + 1) k := by rw [← hkk]

theorem estimate_arith_lt {fN k : Nat} (hk : 0 < k) (h1 : k - 1 ≤ fN) (h2 : fN < k) :
    0 + Nat.factorial fN / Nat.factorial (k - 1) / Nat.factorial (fN + 1 - k)
    = Nat.choose (fN + 1) k := by
  have h3 : Nat.factorial fN / Nat.factorial (k - 1) / Nat.factorial (fN + 1 - k)
      = Nat.choose fN (k - 1) := by
    rw [Nat.div_div_eq_div_mul]
    have he : fN + 1 - k = fN - (k - 1) := by omega
    rw [he]
    exact (Nat.choose_eq_factorial_div_factorial (by omega)).symm
  rw [h3, Nat.zero_add]
  have h0 : Nat.choose fN k = 0 := Nat.choose_eq_zero_of_lt h2
  have hkk : k = (k - 1) + 1 := by omega
  calc Nat.choose fN (k - 1)
      = Nat.choose fN (k - 1) + Nat.choose fN ((k - 1) + 1) := by
        rw [← hkk, h0]
        omega
    _ = Nat.choose (fN + 1) ((k - 1) + 1) := (Nat.choose_succ_succ fN (k - 1)).symm
    _ = Nat.choose (fN + 1) k := by rw [← hkk]

theorem estimateNOptions_fit (bs : List Nat) (L : Nat) (hbs : bs ≠ [])
    (hfit : bs.sum + (bs.length - 1) ≤ L) :
    estimateNOptions bs L = some (Nat.choose (L - bs.sum + 1) bs.length) := by
  have hk : 0 < bs.length := List.length_pos.2 hbs
  have hsum : bs.sum ≤ L := by omega
  have e1 : pyFactorial ((L : Int) - (bs.sum : Int))
      = some (Nat.factorial (L - bs.sum)) := by
    unfold pyFactorial
    rw [if_neg (by omega)]
    congr 1
    congr 1
    omega
  have e2 : pyFactorial ((bs.length : Int)) = some (Nat.factorial bs.length) := by
    unfold pyFactorial
    rw [if_neg (by omega), Int.toNat_ofNat]
  have e3 : pyFactorial ((bs.length : Int) - 1)
      = some (Nat.factorial (bs.length - 1)) := by
    unfold pyFactorial
    rw [if_neg (by omega)]
    congr 1
    congr 1
    omega
  have e4 : pyFactorial ((L : Int) - (bs.sum : Int) - (bs.length : Int) + 1)
      = some (Nat.factorial (L - bs.sum + 1 - bs.length)) := by
    unfold pyFactorial
    rw [if_neg (by omega)]
    congr 1
    congr 1
    omega
  have e5 : pyFactorial ((L : Int) - (bs.sum : Int) - (bs.length : Int))
      = if (0 : Int) ≤ (L : Int) - (bs.sum : Int) - (bs.length : Int) then
          some (Nat.factorial (L - bs.sum - bs.length))
        else none := by
    unfold pyFactorial
    by_cases hc : (0 : Int) ≤ (L : Int) - (bs.sum : Int) - (bs.length : Int)
    · rw [if_pos hc, if_neg (by omega)]
      congr 1
      congr 1
      omega
    · rw [if_neg hc, if_pos (by omega)]
  simp only [estimateNOptions, e1, e2, e3, e4, e5]
  split_ifs with hkf hc
  · exact congrArg some (estimate_arith_le hk (by omega))
  · exact absurd hc (by omega)
  · exact congrArg some (estimate_arith_lt hk (by omega) (by omega))

/-! ## Overlap painting -/

theorem maxStartOverlap_nonneg {bs : List Nat} {lineLen : Nat} (hfit : ClueFits bs lineLen)
    (i : Nat) (hi : i < bs.length) : 0 ≤ maxStartOverlap bs lineLen i := by
  unfold maxStartOverlap
  unfold ClueFits at hfit
  have hsplit : (bs.take i).sum + (bs.drop i).sum = bs.sum := by
    rw [← List.sum_append, List.take_append_drop]
  omega

theorem minFinishOf_le {bs : List Nat} {lineLen : Nat} (hfit : ClueFits bs lineLen)
    (i : Nat) (hi : i < bs.length) : minFinishOf bs i ≤ (lineLen : Nat) := by
  unfold minFinishOf
  unfold ClueFits at hfit
  have hsplit : (bs.take (i + 1)).sum + (bs.drop (i + 1)).sum = bs.sum := by
    rw [← List.sum_append, List.take_append_drop]
  omega

theorem paintRowStep_getD {bs : List Nat} {nCols : Nat} (row : List Cell)
    (hfit : ClueFits bs nCols) (hrow : row.length = nCols) (i : Nat) (hi : i < bs.length) :
    ((pySliceAssign row (maxStartOverlap bs nCols i) (minFinishOf bs i)
        (List.replicate (minFinishOf bs i - maxStartOverlap bs nCols i).toNat
          Cell.painted)).length = nCols) ∧
    ∀ j, (pySliceAssign row (maxStartOverlap bs nCols i) (minFinishOf bs i)
        (List.replicate (minFinishOf bs i - maxStartOverlap bs nCols i).toNat
          Cell.painted)).getD j Cell.unknown
      = if maxStartOverlap bs nCols i ≤ (j : Int) ∧ (j : Int) < minFinishOf bs i
        then Cell.painted else row.getD j Cell.unknown := by
  have hnn := maxStartOverlap_nonneg hfit i hi
  have hle := minFinishOf_le hfit i hi
  have hmf0 : 0 ≤ minFinishOf bs i := by
    unfold minFinishOf
    omega
  by_cases hlt : maxStartOverlap bs nCols i < minFinishOf bs i
  · set p : Nat := (maxStartOverlap bs nCols i).toNat with hp
    set q : Nat := (minFinishOf bs i).toNat with hq
    have hcp : maxStartOverlap bs nCols i = (p : Int) := by omega
    have hcq : minFinishOf bs i = (q : Int) := by omega
    have hcount : (minFinishOf bs i - maxStartOverlap bs nCols i).toNat = q - p := by
      omega
    rw [hcount, hcp, hcq]
    have hpq : p ≤ q := by omega
    have hqlen : q ≤ row.length := by omega
    constructor
    · rw [paintSlice_length row p q hpq hqlen, hrow]
    · intro j
      rw [paintSlice_getD row p q hpq hqlen j]
      by_cases hj : p ≤ j ∧ j < q
      · rw [if_pos hj, if_pos (by omega)]
      · rw [if_neg hj, if_neg (by omega)]
  · have hcount : (minFinishOf bs i - maxStartOverlap bs nCols i).toNat = 0 := by omega
    rw [hcount, List.replicate_zero,
      pySliceAssign_nil_of_le row _ _ hnn hmf0 (by omega)]
    refine ⟨hrow, ?_⟩
    intro j
    rw [if_neg (by omega)]

theorem paintRowBlocks_spec (bs : List Nat) (nCols : Nat) (row : List Cell)
    (hfit : ClueFits bs nCols) (hrow : row.length = nCols) :
    ((paintRowBlocks bs nCols row).length = nCols) ∧
    ∀ j, (paintRowBlocks bs nCols row).getD j Cell.unknown
      = if overlapCond bs nCols j then Cell.painted else row.getD j Cell.unknown := by
  have gen : ∀ l : List Nat, (∀ i ∈ l, i < bs.length) →
      ∀ row' : List Cell, row'.length = nCols →
      ((l.foldl (fun r i =>
          pySliceAssign r (maxStartOverlap bs nCols i) (minFinishOf bs i)
            (List.replicate (minFinishOf bs i - maxStartOverlap bs nCols i).toNat
              Cell.painted)) row').length = nCols) ∧
      ∀ j, (l.foldl (fun r i =>
          pySliceAssign r (maxStartOverlap bs nCols i) (minFinishOf bs i)
            (List.replicate (minFinishOf bs i - maxStartOverlap bs nCols i).toNat
              Cell.painted)) row').getD j Cell.unknown
        = if ∃ i ∈ l, maxStartOverlap bs nCols i ≤ (j : Int) ∧ (j : Int) < minFinishOf bs i
          then Cell.painted else row'.getD j Cell.unknown := by
    intro l
    induction l with
    | nil =>
      intro _ row' hrow'
      refine ⟨hrow', ?_⟩
      intro j
      rw [if_neg (by rintro ⟨i, hi, -⟩; exact absurd hi (List.not_mem_nil i))]
      rfl
    | cons a l' ih =>
      intro hmem row' hrow'
      have hstep := paintRowStep_getD row' hfit hrow' a (hmem a (by simp))
      obtain ⟨ihlen, ihget⟩ := ih (fun i hi => hmem i (by simp [hi])) _ hstep.1
      rw [List.foldl_cons]
      refine ⟨ihlen, ?_⟩
      intro j
      rw [ihget j, hstep.2 j]
      by_cases hrest : ∃ i ∈ l', maxStartOverlap bs nCols i ≤ (j : Int) ∧
          (j : Int) < minFinishOf bs i
      · rw [if_pos hrest, if_pos (by rcases hrest with ⟨i, h1, h2⟩; exact ⟨i, by simp [h1], h2⟩)]
      · rw [if_neg hrest]
        by_cases ha : maxStartOverlap bs nCols a ≤ (j : Int) ∧ (j : Int) < minFinishOf bs a
        · rw [if_pos ha, if_pos ⟨a, by simp, ha⟩]
        · rw [if_neg ha, if_neg ?_]
          rintro ⟨i, hi, hcond⟩
          rcases List.mem_cons.1 hi with rfl | hi'
          · exact ha hcond
          · exact hrest ⟨i, hi', hcond⟩
  obtain ⟨h1, h2⟩ := gen (List.range bs.length) (fun i hi => List.mem_range.1 hi) row hrow
  refine ⟨h1, ?_⟩
  intro j
  unfold paintRowBlocks
  rw [h2 j]
  unfold overlapCond
  by_cases hc : ∃ i ∈ List.range bs.length,
      maxStartOverlap bs nCols i ≤ (j : Int) ∧ (j : Int) < minFinishOf bs i
  · rw [if_pos hc, if_pos (by rcases hc with ⟨i, hi, h⟩; exact ⟨i, List.mem_range.1 hi, h⟩)]
  · rw [if_neg hc, if_neg (by rintro ⟨i, hi, h⟩; exact hc ⟨i, List.mem_range.2 hi, h⟩)]

theorem foldl_setrow_length (g : Nat → List Cell → List Cell) (l : List Nat)
    (f : List (List Cell)) :
    (l.foldl (fun f' a => f'.set a (g a (f'.getD a []))) f).length = f.length := by
  induction l generalizing f with
  | nil => rfl
  | cons a l ih => rw [List.foldl_cons, ih, List.length_set]

theorem foldl_setrow_not_mem (g : Nat → List Cell → List Cell) (l : List Nat)
    (f : List (List Cell)) (r : Nat) (hr : r ∉ l) :
    (l.foldl (fun f' a => f'.set a (g a (f'.getD a []))) f).getD r []
      = f.getD r [] := by
  induction l generalizing f with
  | nil => rfl
  | cons a l ih =>
    rw [List.foldl_cons, ih _ (fun hc => hr (by simp [hc]))]
    rw [getD_set', if_neg (fun hc => hr (by simp [hc.1]))]

theorem foldl_setrow_spec (g : Nat → List Cell → List Cell) (l : List Nat)
    (hnd : l.Nodup) (f : List (List Cell)) :
    ∀ r, (l.foldl (fun f' a => f'.set a (g a (f'.getD a []))) f).getD r []
      = if r ∈ l ∧ r < f.length then g r (f.getD r []) else f.getD r [] := by
  induction l generalizing f with
  | nil =>
    intro r
    rw [if_neg (by rintro ⟨h, -⟩; exact absurd h (List.not_mem_nil r))]
    rfl
  | cons a l ih =>
    intro r
    rw [List.nodup_cons] at hnd
    rw [List.foldl_cons]
    by_cases hra : r = a
    · subst hra
      rw [foldl_setrow_not_mem g l _ r hnd.1]
      rw [getD_set']
      by_cases hrlen : r < f.length
      · rw [if_pos ⟨rfl, hrlen⟩, if_pos ⟨by simp, hrlen⟩]
      · rw [if_neg (fun hc => hrlen hc.2), if_neg (fun hc => hrlen hc.2)]
    · rw [ih hnd.2]
      have hget : (f.set a (g a (f.getD a []))).getD r [] = f.getD r [] := by
        rw [getD_set', if_neg (fun hc => hra hc.1.symm)]
      rw [List.length_set, hget]
      by_cases hrl : r ∈ l ∧ r < f.length
      · rw [if_pos hrl, if_pos ⟨by simp [hrl.1], hrl.2⟩]
      · rw [if_neg hrl]
        rw [if_neg ?_]
        rintro ⟨h1, h2⟩
        rcases List.mem_cons.1 h1 with h | h
        · exact hra h
        · exact hrl ⟨h, h2⟩

theorem colInner_spec (c : Nat) (M F : Int) (nRows nCols : Nat) :
    ∀ l : List Nat, l.Nodup → (∀ a ∈ l, a < nRows) →
    ∀ f : List (List Cell), f.length = nRows →
      (∀ r < nRows, (f.getD r []).length = nCols) → c < nCols →
    ((l.foldl (fun h (r : Nat) =>
        if M ≤ (r : Int) ∧ (r : Int) < F then
          h.set r ((h.getD r []).set c Cell.painted)
        else h) f).length = nRows ∧
     (∀ r < nRows, ((l.foldl (fun h (r : Nat) =>
        if M ≤ (r : Int) ∧ (r : Int) < F then
          h.set r ((h.getD r []).set c Cell.painted)
        else h) f).getD r []).length = nCols) ∧
     ∀ r c', cellGet (l.foldl (fun h (r : Nat) =>
        if M ≤ (r : Int) ∧ (r : Int) < F then
          h.set r ((h.getD r []).set c Cell.painted)
        else h) f) r c'
       = if r ∈ l ∧ c' = c ∧ M ≤ (r : Int) ∧ (r : Int) < F then Cell.painted
         else cellGet f r c') := by
  intro l
  induction l with
  | nil =>
    intro _ _ f hlen hshape hc
    refine ⟨hlen, hshape, ?_⟩
    intro r c'
    rw [if_neg (by rintro ⟨h, -⟩; exact absurd h (List.not_mem_nil r))]
    rfl
  | cons a l ih =>
    intro hnd hmem f hlen hshape hc
    rw [List.nodup_cons] at hnd
    have ha : a < nRows := hmem a (by simp)
    have hstep : ∀ r c', cellGet (if M ≤ (a : Int) ∧ (a : Int) < F then
        f.set a ((f.getD a []).set c Cell.painted) else f) r c'
        = if r = a ∧ c' = c ∧ M ≤ (a : Int) ∧ (a : Int) < F then Cell.painted
          else cellGet f r c' := by
      intro r c'
      by_cases hcond : M ≤ (a : Int) ∧ (a : Int) < F
      · rw [if_pos hcond]
        unfold cellGet
        rw [getD_set']
        by_cases hra : a = r
        · subst hra
          rw [if_pos ⟨rfl, by omega⟩, getD_set']
          by_cases hcc : c = c'
          · subst hcc
            rw [if_pos ⟨rfl, by rw [hshape a ha]; exact hc⟩,
              if_pos ⟨rfl, rfl, hcond⟩]
          · rw [if_neg (fun hx => hcc hx.1), if_neg (fun hx => hcc hx.2.1.symm)]
        · rw [if_neg (fun hx => hra hx.1), if_neg (fun hx => hra hx.1.symm)]
      · rw [if_neg hcond, if_neg (fun hx => hcond hx.2.2)]
    have hsteplen : (if M ≤ (a : Int) ∧ (a : Int) < F then
        f.set a ((f.getD a []).set c Cell.painted) else f).length = nRows := by
      by_cases hcond : M ≤ (a : Int) ∧ (a : Int) < F
      · rw [if_pos hcond, List.length_set, hlen]
      · rw [if_neg hcond, hlen]
    have hstepshape : ∀ r < nRows, ((if M ≤ (a : Int) ∧ (a : Int) < F then
        f.set a ((f.getD a []).set c Cell.painted) else f).getD r []).length = nCols := by
      intro r hr
      by_cases hcond : M ≤ (a : Int) ∧ (a : Int) < F
      · rw [if_pos hcond, getD_set']
        by_cases hra : a = r
        · subst hra
          rw [if_pos ⟨rfl, by omega⟩, List.length_set]
          exact hshape a ha
        · rw [if_neg (fun hx => hra hx.1)]
          exact hshape r hr
      · rw [if_neg hcond]
        exact hshape r hr
    obtain ⟨ih1, ih2, ih3⟩ := ih hnd.2 (fun x hx => hmem x (by simp [hx])) _
      hsteplen hstepshape hc
    rw [List.foldl_cons]
    refine ⟨ih1, ih2, ?_⟩
    intro r c'
    rw [ih3 r c', hstep r c']
    by_cases hrl : r ∈ l ∧ c' = c ∧ M ≤ (r : Int) ∧ (r : Int) < F
    · rw [if_pos hrl, if_pos ⟨by simp [hrl.1], hrl.2⟩]
    · rw [if_neg hrl]
      by_cases hra : r = a ∧ c' = c ∧ M ≤ (a : Int) ∧ (a : Int) < F
      · rw [if_pos hra]
        rw [if_pos ⟨by simp [hra.1], hra.2.1, by rw [hra.1]; exact hra.2.2⟩]
      · rw [if_neg hra]
        rw [if_neg ?_]
        rintro ⟨h1, h2, h3⟩
        rcases List.mem_cons.1 h1 with h | h
        · exact hra ⟨h, h2, by rw [← h]; exact h3⟩
        · exact hrl ⟨h, h2, h3⟩

theorem colBlocks_spec (c : Nat) (bs : List Nat) (nRows nCols : Nat) :
    ∀ lb : List Nat, ∀ f : List (List Cell), f.length = nRows →
      (∀ r < nRows, (f.getD r []).length = nCols) → c < nCols →
    ((lb.foldl (fun g i =>
        (List.range nRows).foldl
          (fun h (r : Nat) =>
            if maxStartOverlap bs nRows i ≤ (r : Int) ∧ (r : Int) < minFinishOf bs i then
              h.set r ((h.getD r []).set c Cell.painted)
            else h) g) f).length = nRows ∧
     (∀ r < nRows, ((lb.foldl (fun g i =>
        (List.range nRows).foldl
          (fun h (r : Nat) =>
            if maxStartOverlap bs nRows i ≤ (r : Int) ∧ (r : Int) < minFinishOf bs i then
              h.set r ((h.getD r []).set c Cell.painted)
            else h) g) f).getD r []).length = nCols) ∧
     ∀ r c', cellGet (lb.foldl (fun g i =>
        (List.range nRows).foldl
          (fun h (r : Nat) =>
            if maxStartOverlap bs nRows i ≤ (r : Int) ∧ (r : Int) < minFinishOf bs i then
              h.set r ((h.getD r []).set c Cell.painted)
            else h) g) f) r c'
       = if r < nRows ∧ c' = c ∧ ∃ i ∈ lb,
             maxStartOverlap bs nRows i ≤ (r : Int) ∧ (r : Int) < minFinishOf bs i
         then Cell.painted else cellGet f r c') := by
  intro lb
  induction lb with
  | nil =>
    intro f hlen hshape hc
    refine ⟨hlen, hshape, ?_⟩
    intro r c'
    rw [if_neg (by rintro ⟨-, -, i, hi, -⟩; exact absurd hi (List.not_mem_nil i))]
    rfl
  | cons i lb ih =>
    intro f hlen hshape hc
    obtain ⟨g1, g2, g3⟩ := colInner_spec c (maxStartOverlap bs nRows i) (minFinishOf bs i)
      nRows nCols (List.range nRows) (List.nodup_range nRows)
      (fun a ha => List.mem_range.1 ha) f hlen hshape hc
    obtain ⟨ih1, ih2, ih3⟩ := ih _ g1 g2 hc
    rw [List.foldl_cons]
    refine ⟨ih1, ih2, ?_⟩
    intro r c'
    rw [ih3 r c', g3 r c']
    by_cases hrest : r < nRows ∧ c' = c ∧ ∃ j ∈ lb,
        maxStartOverlap bs nRows j ≤ (r : Int) ∧ (r : Int) < minFinishOf bs j
    · rw [if_pos hrest, if_pos ⟨hrest.1, hrest.2.1, by
        rcases hrest.2.2 with ⟨j, hj1, hj2⟩; exact ⟨j, by simp [hj1], hj2⟩⟩]
    · rw [if_neg hrest]
      by_cases hhead : r ∈ List.range nRows ∧ c' = c ∧
          maxStartOverlap bs nRows i ≤ (r : Int) ∧ (r : Int) < minFinishOf bs i
      · rw [if_pos hhead, if_pos ⟨List.mem_range.1 hhead.1, hhead.2.1, i, by simp, hhead.2.2⟩]
      · rw [if_neg hhead]
        rw [if_neg ?_]
        rintro ⟨h1, h2, j, hj1, hj2⟩
        rcases List.mem_cons.1 hj1 with rfl | hj
        · exact hhead ⟨List.mem_range.2 h1, h2, hj2⟩
        · exact hrest ⟨h1, h2, j, hj, hj2⟩

theorem colsPass_spec (topNums : List (List Nat)) (nRows : Nat) :
    ∀ lc : List Nat, lc.Nodup → (∀ a ∈ lc, a < topNums.length) →
    ∀ f : List (List Cell), f.length = nRows →
      (∀ r < nRows, (f.getD r []).length = topNums.length) →
    ((lc.foldl (fun f (c : Nat) =>
        (List.range (topNums.getD c []).length).foldl (fun g i =>
          (List.range nRows).foldl
            (fun h (r : Nat) =>
              if maxStartOverlap (topNums.getD c []) nRows i ≤ (r : Int) ∧
                  (r : Int) < minFinishOf (topNums.getD c []) i then
                h.set r ((h.getD r []).set c Cell.painted)
              else h) g) f) f).length = nRows ∧
     (∀ r < nRows, ((lc.foldl (fun f (c : Nat) =>
        (List.range (topNums.getD c []).length).foldl (fun g i =>
          (List.range nRows).foldl
            (fun h (r : Nat) =>
              if maxStartOverlap (topNums.getD c []) nRows i ≤ (r : Int) ∧
                  (r : Int) < minFinishOf (topNums.getD c []) i then
                h.set r ((h.getD r []).set c Cell.painted)
              else h) g) f) f).getD r []).length = topNums.length) ∧
     ∀ r c', cellGet (lc.foldl (fun f (c : Nat) =>
        (List.range (topNums.getD c []).length).foldl (fun g i =>
          (List.range nRows).foldl
            (fun h (r : Nat) =>
              if maxStartOverlap (topNums.getD c []) nRows i ≤ (r : Int) ∧
                  (r : Int) < minFinishOf (topNums.getD c []) i then
                h.set r ((h.getD r []).set c Cell.painted)
              else h) g) f) f) r c'
       = if c' ∈ lc ∧ r < nRows ∧ overlapCond (topNums.getD c' []) nRows r
         then Cell.painted else cellGet f r c') := by
  intro lc
  induction lc with
  | nil =>
    intro _ _ f hlen hshape
    refine ⟨hlen, hshape, ?_⟩
    intro r c'
    rw [if_neg (by rintro ⟨h, -⟩; exact absurd h (List.not_mem_nil c'))]
    rfl
  | cons c lc ih =>
    intro hnd hmem f hlen hshape
    rw [List.nodup_cons] at hnd
    obtain ⟨g1, g2, g3⟩ := colBlocks_spec c (topNums.getD c []) nRows topNums.length
      (List.range (topNums.getD c []).length) f hlen hshape (hmem c (by simp))
    obtain ⟨ih1, ih2, ih3⟩ := ih hnd.2 (fun x hx => hmem x (by simp [hx])) _ g1 g2
    rw [List.foldl_cons]
    refine ⟨ih1, ih2, ?_⟩
    intro r c'
    rw [ih3 r c', g3 r c']
    by_cases hrest : c' ∈ lc ∧ r < nRows ∧ overlapCond (topNums.getD c' []) nRows r
    · rw [if_pos hrest, if_pos ⟨by simp [hrest.1], hrest.2⟩]
    · rw [if_neg hrest]
      by_cases hhead : r < nRows ∧ c' = c ∧ ∃ i ∈ List.range (topNums.getD c []).length,
          maxStartOverlap (topNums.getD c []) nRows i ≤ (r : Int) ∧
            (r : Int) < minFinishOf (topNums.getD c []) i
      · rw [if_pos hhead]
        obtain ⟨hh1, rfl, i, hi, hcond⟩ := hhead
        rw [if_pos ⟨by simp, hh1, ⟨i, List.mem_range.1 hi, hcond⟩⟩]
      · rw [if_neg hhead]
        rw [if_neg ?_]
        rintro ⟨h1, h2, hov⟩
        rcases List.mem_cons.1 h1 with rfl | hc'
        · rcases hov with ⟨i, hi, hcond⟩
          exact hhead ⟨h2, rfl, i, List.mem_range.2 hi, hcond⟩
        · exact hrest ⟨hc', h2, hov⟩

theorem paintBlockOverlaps_cellGet (sideNums topNums : List (List Nat))
    (field : List (List Cell))
    (hfit : ∀ bs ∈ sideNums, ClueFits bs topNums.length)
    (hlen : field.length = sideNums.length)
    (hshape : ∀ r < sideNums.length, (field.getD r []).length = topNums.length) :
    ∀ r c, r < sideNums.length → c < topNums.length →
      cellGet (paintBlockOverlaps sideNums topNums field) r c
        = if overlapCond (sideNums.getD r []) topNums.length c ∨
              overlapCond (topNums.getD c []) sideNums.length r
          then Cell.painted else cellGet field r c := by
  intro r c hr hc
  have hARlen : ((List.range sideNums.length).foldl
      (fun f indRow => f.set indRow (paintRowBlocks (sideNums.getD indRow [])
        topNums.length (f.getD indRow []))) field).length = sideNums.length := by
    have := foldl_setrow_length
      (fun a row => paintRowBlocks (sideNums.getD a []) topNums.length row)
      (List.range sideNums.length) field
    rw [hlen] at this
    exact this
  have hARget : ∀ r', ((List.range sideNums.length).foldl
      (fun f indRow => f.set indRow (paintRowBlocks (sideNums.getD indRow [])
        topNums.length (f.getD indRow []))) field).getD r' []
      = if r' ∈ List.range sideNums.length ∧ r' < field.length then
          paintRowBlocks (sideNums.getD r' []) topNums.length (field.getD r' [])
        else field.getD r' [] :=
    foldl_setrow_spec
      (fun a row => paintRowBlocks (sideNums.getD a []) topNums.length row)
      (List.range sideNums.length) (List.nodup_range _) field
  have hfitr : ∀ r' < sideNums.length, ClueFits (sideNums.getD r' []) topNums.length := by
    intro r' hr'
    apply hfit
    rw [List.getD_eq_getElem _ _ hr']
    exact List.getElem_mem hr'
  have hARshape : ∀ r' < sideNums.length, (((List.range sideNums.length).foldl
      (fun f indRow => f.set indRow (paintRowBlocks (sideNums.getD indRow [])
        topNums.length (f.getD indRow []))) field).getD r' []).length
      = topNums.length := by
    intro r' hr'
    rw [hARget r', if_pos ⟨List.mem_range.2 hr', by omega⟩]
    exact (paintRowBlocks_spec (sideNums.getD r' []) topNums.length (field.getD r' [])
      (hfitr r' hr') (hshape r' hr')).1
  obtain ⟨-, -, hcols⟩ := colsPass_spec topNums sideNums.length
    (List.range topNums.length) (List.nodup_range _) (fun a ha => List.mem_range.1 ha)
    ((List.range sideNums.length).foldl
      (fun f indRow => f.set indRow (paintRowBlocks (sideNums.getD indRow [])
        topNums.length (f.getD indRow []))) field) hARlen hARshape
  show cellGet ((List.range topNums.length).foldl _ _) r c = _
  rw [hcols r c]
  have hARcell : cellGet ((List.range sideNums.length).foldl
      (fun f indRow => f.set indRow (paintRowBlocks (sideNums.getD indRow [])
        topNums.length (f.getD indRow []))) field) r c
      = if overlapCond (sideNums.getD r []) topNums.length c then Cell.painted
        else cellGet field r c := by
    unfold cellGet
    rw [hARget r, if_pos ⟨List.mem_range.2 hr, by omega⟩]
    exact (paintRowBlocks_spec (sideNums.getD r []) topNums.length (field.getD r [])
      (hfitr r hr) (hshape r hr)).2 c
  rw [hARcell]
  by_cases hcol : overlapCond (topNums.getD c []) sideNums.length r
  · rw [if_pos ⟨List.mem_range.2 hc, hr, hcol⟩, if_pos (Or.inr hcol)]
  · rw [if_neg (fun hx => hcol hx.2.2)]
    by_cases hrow : overlapCond (sideNums.getD r []) topNums.length c
    · rw [if_pos hrow, if_pos (Or.inl hrow)]
    · rw [if_neg hrow, if_neg (by rintro (h | h); exacts [hrow h, hcol h])]

/-! ## Refinement: fixed cells are preserved, unknowns can only shrink -/

theorem updateLine_refines {line : List Cell} {bs : List Nat} {out : List Cell}
    (h : updateLine line bs = some out) : LineRefines line out :=
  ⟨updateLine_length h, fun c => updateLine_fixed h c⟩

theorem lineRefines_refl (l : List Cell) : LineRefines l l :=
  ⟨rfl, fun _ _ => rfl⟩

theorem fieldRefines_refl (f : List (List Cell)) : FieldRefines f f :=
  ⟨rfl, fun _ => lineRefines_refl _⟩

theorem lineRefines_trans {a b c : List Cell} (h1 : LineRefines a b)
    (h2 : LineRefines b c) : LineRefines a c := by
  refine ⟨h2.1.trans h1.1, ?_⟩
  intro j hj
  rw [h2.2 j (by rw [h1.2 j hj]; exact hj), h1.2 j hj]

theorem fieldRefines_trans {a b c : List (List Cell)} (h1 : FieldRefines a b)
    (h2 : FieldRefines b c) : FieldRefines a c :=
  ⟨h2.1.trans h1.1, fun r => lineRefines_trans (h1.2 r) (h2.2 r)⟩

theorem setRow_refines {field : List (List Cell)} {r : Nat} {out : List Cell}
    (h : LineRefines (field.getD r []) out) :
    FieldRefines field (field.set r out) := by
  refine ⟨List.length_set field r out ▸ rfl, ?_⟩
  intro r'
  by_cases hr : r = r'
  · subst hr
    by_cases hlt : r < field.length
    · have : (field.set r out).getD r [] = out := by
        rw [getD_set', if_pos ⟨rfl, hlt⟩]
      rw [this]
      exact h
    · have : (field.set r out).getD r [] = field.getD r [] := by
        rw [getD_set', if_neg (fun hc => hlt hc.2)]
      rw [this]
      exact lineRefines_refl _
  · have : (field.set r out).getD r' [] = field.getD r' [] := by
      rw [getD_set', if_neg (fun hc => hr hc.1)]
    rw [this]
    exact lineRefines_refl _

theorem writeColumn_getD (field : List (List Cell)) (nRows indCol : Nat)
    (l' : List Cell) :
    ∀ r, (writeColumn field nRows indCol l').getD r []
      = if r ∈ List.range nRows ∧ r < field.length then
          (field.getD r []).set indCol (l'.getD r Cell.unknown)
        else field.getD r [] :=
  foldl_setrow_spec (fun a row => row.set indCol (l'.getD a Cell.unknown))
    (List.range nRows) (List.nodup_range _) field

theorem writeColumn_refines {field : List (List Cell)} {nRows indCol : Nat}
    {l' : List Cell}
    (h : LineRefines (field.map (fun row => row.getD indCol Cell.unknown)) l') :
    FieldRefines field (writeColumn field nRows indCol l') := by
  refine ⟨?_, ?_⟩
  · unfold writeColumn
    exact foldl_setrow_length
      (fun a row => row.set indCol (l'.getD a Cell.unknown)) (List.range nRows) field
  · intro r
    rw [writeColumn_getD]
    by_cases hcond : r ∈ List.range nRows ∧ r < field.length
    · rw [if_pos hcond]
      refine ⟨by rw [List.length_set], ?_⟩
      intro c' hc'
      rw [getD_set']
      by_cases hcc : indCol = c' ∧ c' < (field.getD r []).length
      · rw [if_pos hcc]
        obtain ⟨rfl, hlt⟩ := hcc
        have hmap : (field.map (fun row => row.getD indCol Cell.unknown)).getD r
            Cell.unknown = (field.getD r []).getD indCol Cell.unknown := by
          rw [List.getD_eq_getElem _ _ (by simpa using hcond.2), List.getElem_map,
            List.getD_eq_getElem _ _ hcond.2]
        rw [← hmap]
        exact (h.2 r (by rw [hmap]; exact hc')).symm ▸ rfl
      · rw [if_neg hcc]
    · rw [if_neg hcond]
      exact lineRefines_refl _

theorem lineRefines_count {l l' : List Cell} (h : LineRefines l l') :
    l'.countP (fun c => c = Cell.unknown) ≤ l.countP (fun c => c = Cell.unknown) ∧
    (l' ≠ l → l'.countP (fun c => c = Cell.unknown)
      < l.countP (fun c => c = Cell.unknown)) := by
  obtain ⟨hlen, hfix⟩ := h
  induction l generalizing l' with
  | nil =>
    rw [List.length_nil, List.length_eq_zero] at hlen
    subst hlen
    exact ⟨le_refl _, fun hc => absurd rfl hc⟩
  | cons a t ih =>
    cases l' with
    | nil => simp at hlen
    | cons a' t' =>
      have hlent : t'.length = t.length := by simpa using hlen
      have hfixh : a ≠ Cell.unknown → a' = a := by
        intro ha
        have := hfix 0 (by simpa using ha)
        simpa using this
      have hfixt : ∀ c, t.getD c Cell.unknown ≠ Cell.unknown →
          t'.getD c Cell.unknown = t.getD c Cell.unknown := by
        intro c hc
        have := hfix (c + 1) (by simpa using hc)
        simpa using this
      obtain ⟨ihle, ihlt⟩ := ih hlent hfixt
      rw [List.countP_cons, List.countP_cons]
      by_cases ha : a = Cell.unknown
      · subst ha
        simp only [decide_eq_true_eq]
        constructor
        · have : (if a' = Cell.unknown then 1 else 0) ≤ 1 := by
            split_ifs <;> omega
          simp only [decide_eq_true_eq] at *
          split_ifs with h1 <;> omega
        · intro hne
          by_cases ht : t' = t
          · subst ht
            have ha' : a' ≠ Cell.unknown := by
              intro hc
              exact hne (by rw [hc])
            rw [if_pos trivial, if_neg ha']
            omega
          · have := ihlt ht
            split_ifs <;> omega
      · rw [hfixh ha]
        constructor
        · omega
        · intro hne
          have ht : t' ≠ t := by
            intro hc
            exact hne (by rw [hc])
          have := ihlt ht
          omega

theorem fieldRefines_count {f f' : List (List Cell)} (h : FieldRefines f f') :
    unknownCount f' ≤ unknownCount f ∧
    (f' ≠ f → unknownCount f' < unknownCount f) := by
  obtain ⟨hlen, hrows⟩ := h
  induction f generalizing f' with
  | nil =>
    rw [List.length_nil, List.length_eq_zero] at hlen
    subst hlen
    exact ⟨le_refl _, fun hc => absurd rfl hc⟩
  | cons row t ih =>
    cases f' with
    | nil => simp at hlen
    | cons row' t' =>
      have hlent : t'.length = t.length := by simpa using hlen
      have hrow0 : LineRefines row row' := by
        have := hrows 0
        simpa using this
      have hrowt : ∀ r, LineRefines (t.getD r []) (t'.getD r []) := by
        intro r
        have := hrows (r + 1)
        simpa using this
      obtain ⟨ihle, ihlt⟩ := ih hlent hrowt
      obtain ⟨hle0, hlt0⟩ := lineRefines_count hrow0
      unfold unknownCount at *
      rw [List.map_cons, List.sum_cons, List.map_cons, List.sum_cons]
      constructor
      · omega
      · intro hne
        by_cases hr : row' = row
        · subst hr
          have ht : t' ≠ t := by
            intro hc
            exact hne (by rw [hc])
          have := ihlt ht
          omega
        · have := hlt0 hr
          omega

theorem solveRowsE_ok_refines (sideNums : List (List Nat)) (rowsSkipped : List Nat) :
    ∀ wl : List Nat, ∀ f f' : List (List Cell),
      solveRowsE sideNums rowsSkipped wl f = .ok f' → FieldRefines f f' := by
  intro wl
  induction wl with
  | nil =>
    intro f f' h
    cases h
    exact fieldRefines_refl f
  | cons i rest ih =>
    intro f f' h
    rw [solveRowsE] at h
    by_cases hskip : i ∈ rowsSkipped
    · rw [if_pos hskip] at h
      exact ih f f' h
    · rw [if_neg hskip] at h
      cases hupd : updateLine (f.getD i []) (sideNums.getD i []) with
      | none => rw [hupd] at h; cases h
      | some l' =>
        rw [hupd] at h
        exact fieldRefines_trans (setRow_refines (updateLine_refines hupd)) (ih _ f' h)

theorem solveColumnsE_ok_refines (topNums : List (List Nat)) (nRows : Nat)
    (colsSkipped : List Nat) :
    ∀ wl : List Nat, ∀ f f' : List (List Cell),
      solveColumnsE topNums nRows colsSkipped wl f = .ok f' → FieldRefines f f' := by
  intro wl
  induction wl with
  | nil =>
    intro f f' h
    cases h
    exact fieldRefines_refl f
  | cons i rest ih =>
    intro f f' h
    rw [solveColumnsE] at h
    by_cases hskip : i ∈ colsSkipped
    · rw [if_pos hskip] at h
      exact ih f f' h
    · rw [if_neg hskip] at h
      cases hupd : updateLine (f.map (fun row => row.getD i Cell.unknown))
          (topNums.getD i []) with
      | none => rw [hupd] at h; cases h
      | some l' =>
        rw [hupd] at h
        exact fieldRefines_trans (writeColumn_refines (updateLine_refines hupd))
          (ih _ f' h)

theorem doSolutionIteration_ok_refines {sideNums topNums : List (List Nat)}
    {rowsSkipped colsSkipped : List Nat} {f f' : List (List Cell)}
    (h : doSolutionIteration sideNums topNums rowsSkipped colsSkipped f = .ok f') :
    FieldRefines f f' := by
  unfold doSolutionIteration at h
  cases hrows : solveRowsE sideNums rowsSkipped (List.range sideNums.length) f with
  | error g => rw [hrows] at h; cases h
  | ok f₁ =>
    rw [hrows] at h
    exact fieldRefines_trans (solveRowsE_ok_refines _ _ _ f f₁ hrows)
      (solveColumnsE_ok_refines _ _ _ _ f₁ f' h)

theorem doSolutionIteration_progress {sideNums topNums : List (List Nat)}
    {rowsSkipped colsSkipped : List Nat} {f f' : List (List Cell)}
    (h : doSolutionIteration sideNums topNums rowsSkipped colsSkipped f = .ok f') :
    unknownCount f' ≤ unknownCount f ∧
    (f' ≠ f → unknownCount f' < unknownCount f) :=
  fieldRefines_count (doSolutionIteration_ok_refines h)

theorem iterateUntilSolved_no_fuelOut (sideNums topNums : List (List Nat)) :
    ∀ fuel rowsSkipped colsSkipped f,
      unknownCount f + (if rowsSkipped = [] ∧ colsSkipped = [] then 1 else 2) ≤ fuel →
      iterateUntilSolved sideNums topNums fuel rowsSkipped colsSkipped f
        ≠ SolveOutcome.fuelOut := by
  intro fuel
  induction fuel with
  | zero =>
    intro rs cs f hbound
    split_ifs at hbound <;> omega
  | succ fuel ih =>
    intro rs cs f hbound
    cases hpass : doSolutionIteration sideNums topNums rs cs f with
    | error g =>
      simp only [iterateUntilSolved, hpass]
      intro h
      exact SolveOutcome.noConfusion h
    | ok f' =>
      simp only [iterateUntilSolved, hpass]
      by_cases hz : unknownCount f' = 0
      · rw [if_pos hz]
        intro h
        exact SolveOutcome.noConfusion h
      · rw [if_neg hz]
        by_cases heq : f' = f
        · rw [if_pos heq]
          by_cases hsk : rs = [] ∧ cs = []
          · rw [if_pos hsk]
            intro h
            exact SolveOutcome.noConfusion h
          · rw [if_neg hsk]
            apply ih
            rw [if_pos ⟨rfl, rfl⟩]
            rw [if_neg hsk] at hbound
            rw [heq]
            omega
        · rw [if_neg heq]
          apply ih
          have hlt := (doSolutionIteration_progress hpass).2 heq
          split_ifs at hbound ⊢ <;> omega

theorem loopClears_empty (sideNums topNums : List (List Nat)) :
    ∀ fuel f, loopClears sideNums topNums fuel [] [] f = 0 := by
  intro fuel
  induction fuel with
  | zero => intro f; rfl
  | succ fuel ih =>
    intro f
    cases hpass : doSolutionIteration sideNums topNums [] [] f with
    | error g => simp only [loopClears, hpass]
    | ok f' =>
      simp only [loopClears, hpass]
      by_cases hz : unknownCount f' = 0
      · rw [if_pos hz]
      · rw [if_neg hz]
        by_cases heq : f' = f
        · rw [if_pos heq, if_pos ⟨trivial, trivial⟩]
        · rw [if_neg heq]
          exact ih f'

theorem loopClears_le_one (sideNums topNums : List (List Nat)) :
    ∀ fuel rowsSkipped colsSkipped f,
      loopClears sideNums topNums fuel rowsSkipped colsSkipped f ≤ 1 := by
  intro fuel
  induction fuel with
  | zero => intro rs cs f; exact Nat.zero_le 1
  | succ fuel ih =>
    intro rs cs f
    cases hpass : doSolutionIteration sideNums topNums rs cs f with
    | error g =>
      simp only [loopClears, hpass]
      exact Nat.zero_le 1
    | ok f' =>
      simp only [loopClears, hpass]
      by_cases hz : unknownCount f' = 0
      · rw [if_pos hz]
        exact Nat.zero_le 1
      · rw [if_neg hz]
        by_cases heq : f' = f
        · rw [if_pos heq]
          by_cases hsk : rs = [] ∧ cs = []
          · rw [if_pos hsk]
            exact Nat.zero_le 1
          · rw [if_neg hsk, loopClears_empty]
        · rw [if_neg heq]
          exact ih rs cs f'

/-! ## Error-state decomposition and step preservation -/

theorem solveRowsE_error_split (sideNums : List (List Nat)) (rowsSkipped : List Nat) :
    ∀ wl : List Nat, ∀ f g : List (List Cell),
      solveRowsE sideNums rowsSkipped wl f = .error g →
      ∃ pre i post, wl = pre ++ i :: post ∧ i ∉ rowsSkipped ∧
        solveRowsE sideNums rowsSkipped pre f = .ok g ∧
        updateLine (g.getD i []) (sideNums.getD i []) = none := by
  intro wl
  induction wl with
  | nil =>
    intro f g h
    cases h
  | cons i rest ih =>
    intro f g h
    rw [solveRowsE] at h
    by_cases hskip : i ∈ rowsSkipped
    · rw [if_pos hskip] at h
      obtain ⟨pre, j, post, hsplit, hjs, hpre, hupd⟩ := ih f g h
      refine ⟨i :: pre, j, post, by rw [hsplit]; rfl, hjs, ?_, hupd⟩
      rw [solveRowsE, if_pos hskip]
      exact hpre
    · rw [if_neg hskip] at h
      cases hupd : updateLine (f.getD i []) (sideNums.getD i []) with
      | none =>
        rw [hupd] at h
        cases h
        exact ⟨[], i, rest, rfl, hskip, rfl, hupd⟩
      | some l' =>
        rw [hupd] at h
        obtain ⟨pre, j, post, hsplit, hjs, hpre, hupd2⟩ := ih _ g h
        refine ⟨i :: pre, j, post, by rw [hsplit]; rfl, hjs, ?_, hupd2⟩
        rw [solveRowsE, if_neg hskip, hupd]
        exact hpre

theorem solveColumnsE_error_split (topNums : List (List Nat)) (nRows : Nat)
    (colsSkipped : List Nat) :
    ∀ wl : List Nat, ∀ f g : List (List Cell),
      solveColumnsE topNums nRows colsSkipped wl f = .error g →
      ∃ pre i post, wl = pre ++ i :: post ∧ i ∉ colsSkipped ∧
        solveColumnsE topNums nRows colsSkipped pre f = .ok g ∧
        updateLine (g.map (fun row => row.getD i Cell.unknown))
          (topNums.getD i []) = none := by
  intro wl
  induction wl with
  | nil =>
    intro f g h
    cases h
  | cons i rest ih =>
    intro f g h
    rw [solveColumnsE] at h
    by_cases hskip : i ∈ colsSkipped
    · rw [if_pos hskip] at h
      obtain ⟨pre, j, post, hsplit, hjs, hpre, hupd⟩ := ih f g h
      refine ⟨i :: pre, j, post, by rw [hsplit]; rfl, hjs, ?_, hupd⟩
      rw [solveColumnsE, if_pos hskip]
      exact hpre
    · rw [if_neg hskip] at h
      cases hupd : updateLine (f.map (fun row => row.getD i Cell.unknown))
          (topNums.getD i []) with
      | none =>
        rw [hupd] at h
        cases h
        exact ⟨[], i, rest, rfl, hskip, rfl, hupd⟩
      | some l' =>
        rw [hupd] at h
        obtain ⟨pre, j, post, hsplit, hjs, hpre, hupd2⟩ := ih _ g h
        refine ⟨i :: pre, j, post, by rw [hsplit]; rfl, hjs, ?_, hupd2⟩
        rw [solveColumnsE, if_neg hskip, hupd]
        exact hpre

theorem cellGet_initField (nRows nCols r c : Nat) :
    cellGet (initField nRows nCols) r c = Cell.unknown := by
  unfold cellGet initField
  rw [getD_replicate']
  by_cases hr : r < nRows
  · rw [if_pos hr, getD_replicate']
    by_cases hc : c < nCols
    · rw [if_pos hc]
    · rw [if_neg hc]
  · rw [if_neg hr]
    rfl

theorem solveStep_preserves {sideNums topNums : List (List Nat)}
    {s s' : SolveState} (h : SolveStep sideNums topNums s s') :
    ∀ r c v, v ≠ Cell.unknown → cellGet s.field r c = v → cellGet s'.field r c = v := by
  intro r c v hv hval
  cases h with
  | paint rs cs =>
    rw [cellGet_initField] at hval
    exact absurd hval.symm hv
  | row _ indRow l' hlt hskip hupd =>
    show cellGet (s.field.set indRow l') r c = v
    unfold cellGet at hval ⊢
    rw [getD_set']
    by_cases hr : indRow = r ∧ r < s.field.length
    · rw [if_pos hr]
      obtain ⟨rfl, hrlen⟩ := hr
      rw [← hval]
      exact updateLine_fixed hupd c (by rw [hval]; exact hv)
    · rw [if_neg hr]
      exact hval
  | col _ indCol l' hlt hskip hupd =>
    show cellGet (writeColumn s.field sideNums.length indCol l') r c = v
    unfold cellGet at hval ⊢
    rw [writeColumn_getD]
    by_cases hr : r ∈ List.range sideNums.length ∧ r < s.field.length
    · rw [if_pos hr]
      rw [getD_set']
      by_cases hc : indCol = c ∧ c < (s.field.getD r []).length
      · rw [if_pos hc]
        obtain ⟨rfl, hclen⟩ := hc
        have hmap : (s.field.map (fun row => row.getD indCol Cell.unknown)).getD r
            Cell.unknown = (s.field.getD r []).getD indCol Cell.unknown := by
          rw [List.getD_eq_getElem _ _ (by simpa using hr.2), List.getElem_map,
            List.getD_eq_getElem _ _ hr.2]
        rw [← hval]
        rw [← hmap]
        apply updateLine_fixed hupd r
        rw [hmap, hval]
        exact hv
      · rw [if_neg hc]
        exact hval
    · rw [if_neg hr]
      exact hval
  | clearSkips _ hne =>
    exact hval

theorem solveSteps_preserve {sideNums topNums : List (List Nat)}
    {a b : SolveState}
    (h : Relation.ReflTransGen (SolveStep sideNums topNums) a b) :
    ∀ r c v, v ≠ Cell.unknown → cellGet a.field r c = v → cellGet b.field r c = v := by
  induction h with
  | refl => exact fun r c v _ hval => hval
  | tail hstep hlast ih =>
    intro r c v hv hval
    exact solveStep_preserves hlast r c v hv (ih r c v hv hval)

/-! ## Scanning-direction equivalence of updateLine -/

theorem generateOption_reverse_isEmpty {bs : List Nat} (line : List Cell) (hbs : bs ≠ []) :
    (generateOption line.reverse bs.reverse).isEmpty = (generateOption line bs).isEmpty := by
  have hbr : bs.reverse ≠ [] := by simpa using hbs
  rw [Bool.eq_iff_iff, List.isEmpty_iff, List.isEmpty_iff,
    generateOption_eq_nil_iff hbr, generateOption_eq_nil_iff hbs, not_iff_not]
  exact validOption_exists_reverse_iff hbs

theorem foldl_set_states_congr (pl : List (Nat × Nat)) (acc : List Cell)
    (s1 s2 : List Cell) (h : s1 = s2) :
    pl.foldl (fun acc p => acc.set p.2 (s1.getD p.1 Cell.unknown)) acc
      = pl.foldl (fun acc p => acc.set p.2 (s2.getD p.1 Cell.unknown)) acc := by
  rw [h]

theorem updateLine_eq_forward (line : List Cell) {bs : List Nat} (hbs : bs ≠ []) :
    updateLine line bs = updateLineForward line bs := by
  unfold updateLine updateLineForward
  by_cases hall : line = List.replicate line.length Cell.unknown
  · rw [if_pos hall, if_pos hall]
  · rw [if_neg hall, if_neg hall]
    cases hgen : generateOption line bs with
    | nil => rfl
    | cons o₀ rest =>
      simp only []
      refine congrArg some (foldl_set_states_congr _ _ _ _ ?_)
      apply List.map_congr_left
      intro p hp
      by_cases hhalf : 2 * p.2 < line.length
      · rw [if_pos hhalf]
      · rw [if_neg hhalf, generateOption_reverse_isEmpty _ hbs]

/-! ## Helper lemmas for the claim theorems -/

theorem goodTuples_top_validStarts {line : List Cell} {bs : List Nat} (hbs : bs ≠ [])
    {ss : List Nat} (hss : ss ∈ goodTuples line bs bs.length 0 0 0) :
    ValidStarts line.length bs ss := by
  have hk : 0 < bs.length := List.length_pos.2 hbs
  have hgood := (mem_goodTuples line bs bs.length 0 0 0 ss hk (by omega)).1 hss
  have hspec := (goodSuffix_iff_suffixSpec line bs ss 0 0 0 hk (le_refl 0)).1 hgood
  exact ((suffixSpec_zero_iff line bs ss hbs).1 hspec).1

theorem generateOption_nodup {line : List Cell} {bs : List Nat} (hbs : bs ≠ [])
    (hpos : ∀ b ∈ bs, 0 < b) : (generateOption line bs).Nodup := by
  rw [generateOption_eq]
  apply List.Nodup.map_on
  · intro x hx y hy hxy
    have hvx := goodTuples_top_validStarts hbs hx
    have hvy := goodTuples_top_validStarts hbs hy
    apply optionOfStarts_inj hpos hvx hvy
    rw [← optionFromPositions_eq_optionOfStarts line.length bs x (validStarts_bounds hvx),
      ← optionFromPositions_eq_optionOfStarts line.length bs y (validStarts_bounds hvy)]
    exact hxy
  · exact (pairwise_goodTuples line bs bs.length 0 0 0).imp
      (fun hlex heq => absurd (heq ▸ hlex) (lex_lt_irrefl _))

theorem estimateNOptions_nofit {bs : List Nat} {L : Nat} (hbs : bs ≠ [])
    (hnofit : ¬ ClueFits bs L) : estimateNOptions bs L = none := by
  have hk : 0 < bs.length := List.length_pos.2 hbs
  unfold ClueFits at hnofit
  have hlt : L < bs.sum + (bs.length - 1) := Nat.lt_of_not_le hnofit
  unfold estimateNOptions
  simp only []
  have hcond : ¬ ((bs.length : Int) ≤ (L : Int) - (bs.sum : Int)) := by omega
  rw [if_neg hcond]
  have h4 : pyFactorial ((L : Int) - (bs.sum : Int) - (bs.length : Int) + 1) = none := by
    unfold pyFactorial
    rw [if_pos (by omega)]
  rw [h4]
  cases h2 : pyFactorial ((L : Int) - (bs.sum : Int)) <;>
    cases h3 : pyFactorial ((bs.length : Int) - 1) <;> rfl

/-! ## The claims -/

/-- Claim C1: for every line with at least one fixed cell and every nonempty
clue of positive block lengths admitting at least one Option, `_update_line`
keeps every fixed cell, forces a previously `UNKNOWN` cell to a value exactly
when every Option consistent with the line has that value there, and leaves it
`UNKNOWN` exactly when Options with both values at that position exist. -/
theorem claim_C1_update_line_characterization {line : List Cell} {bs : List Nat}
    {out : List Cell} (hbs : bs ≠ []) ( _hpos : ∀ b ∈ bs, 0 < b)
    (hfix : ∃ q < line.length, line.getD q Cell.unknown ≠ Cell.unknown)
    (hex : ∃ opt, ValidOption line bs opt)
    (hupd : updateLine line bs = some out) :
    out.length = line.length ∧
    (∀ q, line.getD q Cell.unknown ≠ Cell.unknown →
      out.getD q Cell.unknown = line.getD q Cell.unknown) ∧
    (∀ q, q < line.length → line.getD q Cell.unknown = Cell.unknown →
      ((out.getD q Cell.unknown = Cell.painted ↔
        ∀ opt, ValidOption line bs opt → opt.getD q Cell.unknown = Cell.painted) ∧
       (out.getD q Cell.unknown = Cell.space ↔
        ∀ opt, ValidOption line bs opt → opt.getD q Cell.unknown = Cell.space) ∧
       (out.getD q Cell.unknown = Cell.unknown ↔
        ((∃ opt, ValidOption line bs opt ∧ opt.getD q Cell.unknown = Cell.painted) ∧
         (∃ opt, ValidOption line bs opt ∧ opt.getD q Cell.unknown = Cell.space))))) := by
  have hall : line ≠ List.replicate line.length Cell.unknown := not_replicate_iff.2 hfix
  exact ⟨updateLine_length hupd, fun q hq => updateLine_fixed hupd q hq,
    fun q hq hU => updateLine_unknown_char hbs hall hex hupd q hq hU⟩

/-- Witness for claim C1 at the line `[PAINTED, UNKNOWN, UNKNOWN]` with clue
`[2]`, whose update is `[PAINTED, PAINTED, SPACE]`. -/
theorem claim_C1_witness :
    ([Cell.painted, Cell.painted, Cell.space] : List Cell).length
        = ([Cell.painted, Cell.unknown, Cell.unknown] : List Cell).length ∧
    (∀ q, ([Cell.painted, Cell.unknown, Cell.unknown] : List Cell).getD q Cell.unknown
        ≠ Cell.unknown →
      ([Cell.painted, Cell.painted, Cell.space] : List Cell).getD q Cell.unknown
        = ([Cell.painted, Cell.unknown, Cell.unknown] : List Cell).getD q Cell.unknown) ∧
    (∀ q, q < ([Cell.painted, Cell.unknown, Cell.unknown] : List Cell).length →
      ([Cell.painted, Cell.unknown, Cell.unknown] : List Cell).getD q Cell.unknown
        = Cell.unknown →
      ((([Cell.painted, Cell.painted, Cell.space] : List Cell).getD q Cell.unknown
          = Cell.painted ↔
        ∀ opt, ValidOption [Cell.painted, Cell.unknown, Cell.unknown] [2] opt →
          opt.getD q Cell.unknown = Cell.painted) ∧
       (([Cell.painted, Cell.painted, Cell.space] : List Cell).getD q Cell.unknown
          = Cell.space ↔
        ∀ opt, ValidOption [Cell.painted, Cell.unknown, Cell.unknown] [2] opt →
          opt.getD q Cell.unknown = Cell.space) ∧
       (([Cell.painted, Cell.painted, Cell.space] : List Cell).getD q Cell.unknown
          = Cell.unknown ↔
        ((∃ opt, ValidOption [Cell.painted, Cell.unknown, Cell.unknown] [2] opt ∧
            opt.getD q Cell.unknown = Cell.painted) ∧
         (∃ opt, ValidOption [Cell.painted, Cell.unknown, Cell.unknown] [2] opt ∧
            opt.getD q Cell.unknown = Cell.space))))) :=
  @claim_C1_update_line_characterization [Cell.painted, Cell.unknown, Cell.unknown] [2]
    [Cell.painted, Cell.painted, Cell.space] (by decide) (by decide)
    ⟨0, by decide, by decide⟩
    ⟨optionOfStarts 3 [2] [0], [0], by decide, rfl, by decide⟩
    (by decide)

/-- Claim C2: the options yielded by `_generate_option` for a line and a
nonempty clue of positive block lengths are exactly the valid Options of the
line (correct block lengths and order, a blank between consecutive blocks,
agreement with every fixed cell), each exactly once, ordered by increasing
lexicographic order of the underlying tuples of block start positions. -/
theorem claim_C2_generator_characterization {line : List Cell} {bs : List Nat}
    (hbs : bs ≠ []) (hpos : ∀ b ∈ bs, 0 < b) :
    (∀ opt, opt ∈ generateOption line bs ↔ ValidOption line bs opt) ∧
    (generateOption line bs).Nodup ∧
    generateOption line bs
      = (goodTuples line bs bs.length 0 0 0).map
          (fun ss => optionFromPositions line.length bs ss) ∧
    (goodTuples line bs bs.length 0 0 0).Pairwise (List.Lex (· < ·)) :=
  ⟨fun opt => mem_generateOption hbs opt, generateOption_nodup hbs hpos,
    generateOption_eq line bs, pairwise_goodTuples line bs bs.length 0 0 0⟩

/-- Witness for claim C2 on the all-`UNKNOWN` line of length 5 with clue
`[2, 1]`. -/
theorem claim_C2_witness :
    (∀ opt, opt ∈ generateOption
        [Cell.unknown, Cell.unknown, Cell.unknown, Cell.unknown, Cell.unknown] [2, 1] ↔
      ValidOption [Cell.unknown, Cell.unknown, Cell.unknown, Cell.unknown, Cell.unknown]
        [2, 1] opt) ∧
    (generateOption [Cell.unknown, Cell.unknown, Cell.unknown, Cell.unknown, Cell.unknown]
      [2, 1]).Nodup ∧
    generateOption [Cell.unknown, Cell.unknown, Cell.unknown, Cell.unknown, Cell.unknown]
        [2, 1]
      = (goodTuples [Cell.unknown, Cell.unknown, Cell.unknown, Cell.unknown, Cell.unknown]
          [2, 1] ([2, 1] : List Nat).length 0 0 0).map
          (fun ss => optionFromPositions
            ([Cell.unknown, Cell.unknown, Cell.unknown, Cell.unknown, Cell.unknown] :
              List Cell).length [2, 1] ss) ∧
    (goodTuples [Cell.unknown, Cell.unknown, Cell.unknown, Cell.unknown, Cell.unknown]
      [2, 1] ([2, 1] : List Nat).length 0 0 0).Pairwise (List.Lex (· < ·)) :=
  @claim_C2_generator_characterization
    [Cell.unknown, Cell.unknown, Cell.unknown, Cell.unknown, Cell.unknown] [2, 1]
    (by decide) (by decide)

/-- Claim C3: `_update_line` raises the Contradiction `ValueError` exactly when
the line has at least one fixed cell and no Option exists for it; the 3-cell
line `[PAINTED, SPACE, PAINTED]` with clue `[3]` raises, and an all-`UNKNOWN`
line is returned unchanged. -/
theorem claim_C3_contradiction_characterization {line : List Cell} {bs : List Nat}
    (hbs : bs ≠ []) :
    (updateLine line bs = none ↔
      ((∃ q < line.length, line.getD q Cell.unknown ≠ Cell.unknown) ∧
        ¬ ∃ opt, ValidOption line bs opt)) ∧
    updateLine [Cell.painted, Cell.space, Cell.painted] [3] = none ∧
    (line = List.replicate line.length Cell.unknown → updateLine line bs = some line) := by
  refine ⟨?_, by decide, fun h => updateLine_all_unknown bs h⟩
  rw [updateLine_none_iff, not_replicate_iff]
  exact and_congr_right (fun _ => generateOption_eq_nil_iff hbs)

/-- Witness for claim C3 at the line `[PAINTED, SPACE, PAINTED]` with clue
`[3]`. -/
theorem claim_C3_witness :
    (updateLine [Cell.painted, Cell.space, Cell.painted] [3] = none ↔
      ((∃ q < ([Cell.painted, Cell.space, Cell.painted] : List Cell).length,
          ([Cell.painted, Cell.space, Cell.painted] : List Cell).getD q Cell.unknown
            ≠ Cell.unknown) ∧
        ¬ ∃ opt, ValidOption [Cell.painted, Cell.space, Cell.painted] [3] opt)) ∧
    updateLine [Cell.painted, Cell.space, Cell.painted] [3] = none ∧
    ([Cell.painted, Cell.space, Cell.painted] =
        List.replicate ([Cell.painted, Cell.space, Cell.painted] : List Cell).length
          Cell.unknown →
      updateLine [Cell.painted, Cell.space, Cell.painted] [3]
        = some [Cell.painted, Cell.space, Cell.painted]) :=
  @claim_C3_contradiction_characterization [Cell.painted, Cell.space, Cell.painted] [3]
    (by decide)

/-- Claim C4 (amended): when every row clue fits its line, after
`_paint_block_overlaps` runs on the all-`UNKNOWN` grid a cell is `PAINTED`
exactly when it lies in the overlap range `[max_start, min_finish)` of some
block of its row clue or of its column clue, and every other cell remains
`UNKNOWN`; a 5-cell row with clue `[5]` is fully painted by this step alone.
The original claim, without the fit condition on the row clues, is refuted by
`claim_C4_counterexample`: a row clue that does not fit makes the slice
assignment wrap around via negative Python indices and miss the claimed
cells. -/
theorem claim_C4_overlap_characterization {sideNums topNums : List (List Nat)}
    (hfit : ∀ bs ∈ sideNums, ClueFits bs topNums.length) :
    (∀ r c, r < sideNums.length → c < topNums.length →
      cellGet (paintBlockOverlaps sideNums topNums
          (initField sideNums.length topNums.length)) r c
        = if overlapCond (sideNums.getD r []) topNums.length c ∨
              overlapCond (topNums.getD c []) sideNums.length r
          then Cell.painted else Cell.unknown) ∧
    paintBlockOverlaps [[5]] [[1], [1], [1], [1], [1]] (initField 1 5)
      = [List.replicate 5 Cell.painted] := by
  constructor
  · intro r c hr hc
    have hlen : (initField sideNums.length topNums.length).length = sideNums.length :=
      List.length_replicate _ _
    have hshape : ∀ r, r < sideNums.length →
        ((initField sideNums.length topNums.length).getD r []).length = topNums.length := by
      intro r hr
      unfold initField
      rw [getD_replicate', if_pos hr, List.length_replicate]
    rw [paintBlockOverlaps_cellGet sideNums topNums _ hfit hlen hshape r c hr hc,
      cellGet_initField]
  · decide

/-- Witness for claim C4 on the 1-by-3 grid with row clue `[2]` and column
clues `[1]`, `[1]`, `[1]`. -/
theorem claim_C4_witness :
    (∀ r c, r < ([[2]] : List (List Nat)).length →
        c < ([[1], [1], [1]] : List (List Nat)).length →
      cellGet (paintBlockOverlaps [[2]] [[1], [1], [1]]
          (initField ([[2]] : List (List Nat)).length
            ([[1], [1], [1]] : List (List Nat)).length)) r c
        = if overlapCond (([[2]] : List (List Nat)).getD r [])
              ([[1], [1], [1]] : List (List Nat)).length c ∨
              overlapCond (([[1], [1], [1]] : List (List Nat)).getD c [])
                ([[2]] : List (List Nat)).length r
          then Cell.painted else Cell.unknown) ∧
    paintBlockOverlaps [[5]] [[1], [1], [1], [1], [1]] (initField 1 5)
      = [List.replicate 5 Cell.painted] :=
  @claim_C4_overlap_characterization [[2]] [[1], [1], [1]] (by decide)

/-- Counterexample to claim C4 as stated: on the 2-by-3 grid with row clues
`[5]`, `[1]` and column clues `[1]`, `[1]`, `[1]`, cell `(0, 0)` lies in the
claimed overlap range of block 0 of the row clue `[5]` (`max_start = -2 <
min_finish = 5`), yet after `_paint_block_overlaps` it is `UNKNOWN`, not
`PAINTED`: the Python slice assignment `row[-2:5] = ...` wraps around the
negative start index. -/
theorem claim_C4_counterexample :
    overlapCond ([5] : List Nat) 3 0 ∧
    ¬ overlapCond ([1] : List Nat) 2 0 ∧
    cellGet (paintBlockOverlaps [[5], [1]] [[1], [1], [1]] (initField 2 3)) 0 0
      = Cell.unknown := by
  decide

/-- Claim C5: for a nonempty clue of positive block lengths that fits the
line, `_estimate_n_options` returns exactly the number of options yielded by
`_generate_option` on the all-`UNKNOWN` line; for length 5 and clue `[2, 1]`
it returns exactly 3. -/
theorem claim_C5_estimate_exact {bs : List Nat} {L : Nat} (hbs : bs ≠ [])
    ( _hpos : ∀ b ∈ bs, 0 < b) (hfit : ClueFits bs L) :
    estimateNOptions bs L
        = some (generateOption (List.replicate L Cell.unknown) bs).length ∧
    estimateNOptions [2, 1] 5 = some 3 ∧
    (generateOption (List.replicate 5 Cell.unknown) [2, 1]).length = 3 := by
  refine ⟨?_, by decide, by decide⟩
  rw [estimateNOptions_fit bs L hbs hfit, generateOption_length_unknown L bs hbs hfit]

/-- Witness for claim C5 at clue `[1]` on a line of length 1. -/
theorem claim_C5_witness :
    estimateNOptions [1] 1
        = some (generateOption (List.replicate 1 Cell.unknown) [1]).length ∧
    estimateNOptions [2, 1] 5 = some 3 ∧
    (generateOption (List.replicate 5 Cell.unknown) [2, 1]).length = 3 :=
  @claim_C5_estimate_exact [1] 1 (by decide) (by decide) (by decide)

/-- Claim C6 (amended): for a nonempty clue, `_estimate_n_options` raises the
`math.factorial` `ValueError` exactly when the clue does not fit the line
(line length minus the sum of the block lengths is less than the block count
minus one); on degenerate small inputs it does not return a defined value, as
`claim_C6_counterexample` shows at clue `[1, 1]` on a line of length 2. -/
theorem claim_C6_estimate_error_iff {bs : List Nat} {nLine : Nat} (hbs : bs ≠ []) :
    estimateNOptions bs nLine = none ↔ ¬ ClueFits bs nLine := by
  constructor
  · intro hnone hfit
    rw [estimateNOptions_fit bs nLine hbs hfit] at hnone
    exact Option.noConfusion hnone
  · exact estimateNOptions_nofit hbs

/-- Witness for claim C6 at clue `[1]` on a line of length 0. -/
theorem claim_C6_witness :
    estimateNOptions [1] 0 = none ↔ ¬ ClueFits [1] 0 :=
  @claim_C6_estimate_error_iff [1] 0 (by decide)

/-- Counterexample to claim C6 as stated: for the clue `[1, 1]` of positive
block lengths on a line of length 2 (a degenerate input where the blocks do
not fit), `_estimate_n_options` does not return a defined value: it raises
`ValueError` in `math.factorial` of the negative number `f - k + 1 = -1`. -/
theorem claim_C6_counterexample :
    (2 : Nat) < ([1, 1] : List Nat).sum + (([1, 1] : List Nat).length - 1) ∧
    estimateNOptions [1, 1] 2 = none := by
  decide

/-- Claim C7: cell states are monotonic across the whole of `solve` — along
any sequence of grid transitions (the initial overlap painting, the row and
column updates of every pass, and the skip-list clearings), a cell that is
`SPACE` or `PAINTED` never changes to a different value. -/
theorem claim_C7_monotonicity {sideNums topNums : List (List Nat)}
    {a b : SolveState}
    (h : Relation.ReflTransGen (SolveStep sideNums topNums) a b) :
    ∀ r c v, v ≠ Cell.unknown → cellGet a.field r c = v → cellGet b.field r c = v :=
  solveSteps_preserve h

/-- Witness for claim C7: one row-update step on the 1-by-2 grid `[[PAINTED,
UNKNOWN]]` with row clue `[2]` keeps cell `(0, 0)` `PAINTED`. -/
theorem claim_C7_witness :
    cellGet (SolveState.mk (([[Cell.painted, Cell.unknown]] : List (List Cell)).set 0
        [Cell.painted, Cell.painted]) [] []).field 0 0 = Cell.painted :=
  claim_C7_monotonicity
    (Relation.ReflTransGen.single
      ((SolveStep.row ⟨[[Cell.painted, Cell.unknown]], [], []⟩ 0
          [Cell.painted, Cell.painted] (by decide) (by decide) (by decide)) :
        SolveStep [[2]] [[1], [1]] ⟨[[Cell.painted, Cell.unknown]], [], []⟩
          ⟨([[Cell.painted, Cell.unknown]] : List (List Cell)).set 0
            [Cell.painted, Cell.painted], [], []⟩))
    0 0 Cell.painted (by decide) (by decide)

/-- Claim C8: `solve` terminates — the loop of `_iterate_until_solved` never
runs out when given fuel `unknownCount + 2`, because each pass either strictly
decreases the number of `UNKNOWN` cells, reaches a terminal outcome, or clears
the skip lists, and the clearing branch is taken at most once per run. -/
theorem claim_C8_termination {sideNums topNums : List (List Nat)} :
    ∀ fuel rowsSkipped colsSkipped field,
      (unknownCount field + (if rowsSkipped = [] ∧ colsSkipped = [] then 1 else 2) ≤ fuel →
        iterateUntilSolved sideNums topNums fuel rowsSkipped colsSkipped field
          ≠ SolveOutcome.fuelOut) ∧
      loopClears sideNums topNums fuel rowsSkipped colsSkipped field ≤ 1 ∧
      (∀ f', doSolutionIteration sideNums topNums rowsSkipped colsSkipped field = .ok f' →
        unknownCount f' ≤ unknownCount field ∧
          (f' ≠ field → unknownCount f' < unknownCount field)) :=
  fun fuel rs cs f =>
    ⟨iterateUntilSolved_no_fuelOut sideNums topNums fuel rs cs f,
     loopClears_le_one sideNums topNums fuel rs cs f,
     fun _ h => doSolutionIteration_progress h⟩

/-- Witness for claim C8 on the 1-by-1 puzzle with clues `[[1]]`, `[[1]]`,
fuel 3 and empty skip lists. -/
theorem claim_C8_witness :
    iterateUntilSolved [[1]] [[1]] 3 [] [] (initField 1 1) ≠ SolveOutcome.fuelOut ∧
    loopClears [[1]] [[1]] 3 [] [] (initField 1 1) ≤ 1 ∧
    (unknownCount (initField 1 1) ≤ unknownCount (initField 1 1) ∧
      (initField 1 1 ≠ initField 1 1 →
        unknownCount (initField 1 1) < unknownCount (initField 1 1))) := by
  obtain ⟨h1, h2, h3⟩ := @claim_C8_termination [[1]] [[1]] 3 [] [] (initField 1 1)
  exact ⟨h1 (by decide), h2, h3 (initField 1 1) rfl⟩

/-- Claim C9: reversal symmetry — `_generate_option` yields an Option for the
reversed line with the reversed clue exactly when it yields one for the
original, and `_update_line` with its direction-dependent probing computes the
same result as the variant that always probes forward. -/
theorem claim_C9_reversal_symmetry {line : List Cell} {bs : List Nat} (hbs : bs ≠ []) :
    (generateOption line.reverse bs.reverse ≠ [] ↔ generateOption line bs ≠ []) ∧
    updateLine line bs = updateLineForward line bs := by
  constructor
  · have h := generateOption_reverse_isEmpty line hbs
    rw [Bool.eq_iff_iff, List.isEmpty_iff, List.isEmpty_iff] at h
    exact not_congr h
  · exact updateLine_eq_forward line hbs

/-- Witness for claim C9 at the line `[PAINTED, UNKNOWN]` with clue `[2]`. -/
theorem claim_C9_witness :
    (generateOption ([Cell.painted, Cell.unknown] : List Cell).reverse
        ([2] : List Nat).reverse ≠ []
      ↔ generateOption [Cell.painted, Cell.unknown] [2] ≠ []) ∧
    updateLine [Cell.painted, Cell.unknown] [2]
      = updateLineForward [Cell.painted, Cell.unknown] [2] :=
  @claim_C9_reversal_symmetry [Cell.painted, Cell.unknown] [2] (by decide)

/-- Claim C10: atomicity on contradiction — when a pass of the solver raises
the Contradiction error, the field it leaves behind is exactly the field
produced by the previously completed line updates of that pass: the failing
line's `_update_line` returned `none` on that very field, and no write for
the failing line happened. -/
theorem claim_C10_atomic_on_contradiction {sideNums topNums : List (List Nat)}
    {rowsSkipped colsSkipped : List Nat} {f g : List (List Cell)}
    (h : doSolutionIteration sideNums topNums rowsSkipped colsSkipped f = .error g) :
    (∃ pre i post, List.range sideNums.length = pre ++ i :: post ∧
        i ∉ rowsSkipped ∧
        solveRowsE sideNums rowsSkipped pre f = .ok g ∧
        updateLine (g.getD i []) (sideNums.getD i []) = none) ∨
    (∃ f₁, solveRowsE sideNums rowsSkipped (List.range sideNums.length) f = .ok f₁ ∧
      ∃ pre i post, List.range topNums.length = pre ++ i :: post ∧
        i ∉ colsSkipped ∧
        solveColumnsE topNums sideNums.length colsSkipped pre f₁ = .ok g ∧
        updateLine (g.map (fun row => row.getD i Cell.unknown))
          (topNums.getD i []) = none) := by
  unfold doSolutionIteration at h
  cases hrows : solveRowsE sideNums rowsSkipped (List.range sideNums.length) f with
  | error g' =>
    rw [hrows] at h
    cases h
    exact Or.inl (solveRowsE_error_split sideNums rowsSkipped _ f g hrows)
  | ok f₁ =>
    rw [hrows] at h
    exact Or.inr ⟨f₁, rfl,
      solveColumnsE_error_split topNums sideNums.length colsSkipped _ f₁ g h⟩

/-- Witness for claim C10: the pass on the 1-by-3 grid `[[PAINTED, SPACE,
PAINTED]]` with row clue `[3]` raises the contradiction at row 0 and leaves
the field untouched. -/
theorem claim_C10_witness :
    (∃ pre i post, List.range ([[3]] : List (List Nat)).length = pre ++ i :: post ∧
        i ∉ ([] : List Nat) ∧
        solveRowsE [[3]] [] pre [[Cell.painted, Cell.space, Cell.painted]]
          = .ok [[Cell.painted, Cell.space, Cell.painted]] ∧
        updateLine (([[Cell.painted, Cell.space, Cell.painted]] :
            List (List Cell)).getD i []) (([[3]] : List (List Nat)).getD i []) = none) ∨
    (∃ f₁, solveRowsE [[3]] [] (List.range ([[3]] : List (List Nat)).length)
          [[Cell.painted, Cell.space, Cell.painted]] = .ok f₁ ∧
      ∃ pre i post,
        List.range ([[1], [1], [1]] : List (List Nat)).length = pre ++ i :: post ∧
        i ∉ ([] : List Nat) ∧
        solveColumnsE [[1], [1], [1]] ([[3]] : List (List Nat)).length [] pre f₁
          = .ok [[Cell.painted, Cell.space, Cell.painted]] ∧
        updateLine (([[Cell.painted, Cell.space, Cell.painted]] :
              List (List Cell)).map (fun row => row.getD i Cell.unknown))
          (([[1], [1], [1]] : List (List Nat)).getD i []) = none) :=
  @claim_C10_atomic_on_contradiction [[3]] [[1], [1], [1]] [] []
    [[Cell.painted, Cell.space, Cell.painted]] [[Cell.painted, Cell.space, Cell.painted]]
    (by rfl)
